import Mathlib

/-!
Verification of the structure-aware chunking pipeline and the
retrieval-aggregation engine of the Textbook-Mapping-Assistant service
(source: src/main.py).  The Python code is shallowly embedded: strings are
modelled at ASCII granularity (Python string methods and the regular
expressions involved are deterministic on the inputs this program handles),
chunk texts are represented by their whitespace-token lists (the source
joins the token buffer with single spaces at flush time; a rendering
function recovers the joined string), and the module-level mutable state of
the web service is threaded explicitly.  Chunker runs additionally carry a
ghost event trace (never read by the algorithm) so that flush events can be
spoken about; an instrumented run with position-tagged tokens supports
provenance statements.
-/

set_option maxRecDepth 20000

namespace TextbookMap

/-! ## ASCII models of the Python string primitives -/

/-- Python whitespace (ASCII fragment of the character class the regular
expressions and string methods use). -/
def pyIsSpace (c : Char) : Bool :=
  c = ' ' || c = '\t' || c = '\n' || c = '\r' || c = '\x0b' || c = '\x0c'

/-- Model of the strip method: remove leading and trailing whitespace. -/
def pyStrip (s : List Char) : List Char :=
  ((s.dropWhile pyIsSpace).reverse.dropWhile pyIsSpace).reverse

/-- Model of splitlines: split at newline characters. -/
def splitLinesCh : List Char → List (List Char)
  | [] => [[]]
  | c :: rest =>
    match splitLinesCh rest with
    | [] => if c = '\n' then [[], []] else [[c]]
    | h :: t => if c = '\n' then [] :: h :: t else (c :: h) :: t

/-- Helper for the whitespace split: accumulates the current word reversed. -/
def pySplitAux : List Char → List Char → List (List Char)
  | [], cur => if cur = [] then [] else [cur.reverse]
  | c :: rest, cur =>
    if pyIsSpace c then
      if cur = [] then pySplitAux rest [] else cur.reverse :: pySplitAux rest []
    else pySplitAux rest (c :: cur)

/-- Model of the argumentless split method: split on runs of whitespace,
dropping empty pieces. -/
def pySplitCh (s : List Char) : List (List Char) := pySplitAux s []

/-- Join a token list with single spaces (the join call in flush). -/
def joinWords : List String → List Char
  | [] => []
  | [w] => w.data
  | w :: rest => w.data ++ ' ' :: joinWords rest

/-! ## Structure detectors (src/main.py lines 59-110) -/

/-- Characters matched by the class [IVXLC] under IGNORECASE. -/
def isRomanChar (c : Char) : Bool :=
  c = 'I' || c = 'V' || c = 'X' || c = 'L' || c = 'C' ||
  c = 'i' || c = 'v' || c = 'x' || c = 'l' || c = 'c'

/-- Strip a keyword from the front of a character list, comparing
case-insensitively; returns the remainder on success. -/
def ciStrip : List Char → List Char → Option (List Char)
  | [], s => some s
  | _ :: _, [] => none
  | k :: ks, c :: cs => if c.toLower = k.toLower then ciStrip ks cs else none

/-- UnitDetector.detect: the anchored match of (UNIT|CHAPTER)\s+([IVXLC]+)
under IGNORECASE against the stripped line; the alternation is
deterministic (the two keywords differ at their first letter), the
whitespace and numeral runs are maximal munch (no backtracking can succeed
because a roman character is never whitespace).  Returns group 2
uppercased. -/
def unitDetectAfter (r : List Char) : Option String :=
  if r.takeWhile pyIsSpace = [] then none
  else if (r.dropWhile pyIsSpace).takeWhile isRomanChar = [] then none
  else some (String.mk (((r.dropWhile pyIsSpace).takeWhile isRomanChar).map Char.toUpper))

/-- The alternation: try UNIT first, then CHAPTER (their first letters
differ, so the regex alternation is deterministic). -/
def unitDetect (line : List Char) : Option String :=
  match ciStrip "UNIT".data (pyStrip line) with
  | some r => unitDetectAfter r
  | none =>
    match ciStrip "CHAPTER".data (pyStrip line) with
    | some r => unitDetectAfter r
    | none => none

/-- Consume the ('.' digits+)* part of the section-number pattern by maximal
munch (each dot must be followed by at least one digit); returns the
consumed characters and the remainder.  This is exactly the backtracking
behaviour of the regular expression: giving characters back can never help,
since the following \s+ cannot match a digit or a dot. -/
def dotGroupsF : Nat → List Char → List Char × List Char
  | 0, s => ([], s)
  | _ + 1, [] => ([], [])
  | fuel + 1, c :: rest =>
    if c = '.' ∧ rest.takeWhile Char.isDigit ≠ [] then
      let ds := rest.takeWhile Char.isDigit
      let pr := dotGroupsF fuel (rest.drop ds.length)
      (c :: (ds ++ pr.1), pr.2)
    else ([], c :: rest)

/-- Entry point with enough fuel: every step consumes at least a dot and a
digit, so the input's length bounds the recursion depth (structural fuel
keeps the definition computation-friendly). -/
def dotGroups (s : List Char) : List Char × List Char := dotGroupsF s.length s

/-- NumberedSectionDetector.detect: the anchored match of
(\d+(\.\d+)*)\s+(.*) against the stripped line.  Returns
(section, section_title). -/
def numberedDetect (line : List Char) : Option (String × String) :=
  let s := pyStrip line
  let d1 := s.takeWhile Char.isDigit
  if d1 = [] then none
  else
    let pr := dotGroups (s.drop d1.length)
    if pr.2.takeWhile pyIsSpace = [] then none
    else some (String.mk (d1 ++ pr.1), String.mk (pr.2.dropWhile pyIsSpace))

/-- The two built-in detector variants used by the service. -/
inductive StructureDetector where
  | unitDetector
  | numberedSectionDetector
deriving DecidableEq

/-- The running structural state (and also the shape of a detector result:
a Python dict holding a subset of these keys, a missing key modelled as
none).  The field sec models the Python key named section, which is a
reserved word here. -/
structure StructState where
  unit : Option String
  sec : Option String
  section_title : Option String
deriving DecidableEq

/-- StructureDetector.detect, dispatching on the variant. -/
def detect : StructureDetector → List Char → Option StructState
  | .unitDetector, line =>
    match unitDetect line with
    | some u => some ⟨some u, none, none⟩
    | none => none
  | .numberedSectionDetector, line =>
    match numberedDetect line with
    | some (s, t) => some ⟨none, some s, some t⟩
    | none => none

/-- dict.update with a partial result: keys present in the result overwrite
the state, absent keys keep it. -/
def updField (new old : Option String) : Option String :=
  match new with
  | some v => some v
  | none => old

/-- Apply one detector result onto the running state. -/
def applyResult (st r : StructState) : StructState :=
  ⟨updField r.unit st.unit, updField r.sec st.sec, updField r.section_title st.section_title⟩

/-- StructurePipeline.process_line: run every detector in order, folding
each non-null result into the state; the flag records whether any detector
fired. -/
def process_line (detectors : List StructureDetector) (st : StructState)
    (line : List Char) : Bool × StructState :=
  detectors.foldl
    (fun acc d =>
      match detect d line with
      | some r => (true, applyResult acc.2 r)
      | none => acc)
    (false, st)

/-! ## The streaming chunker (src/main.py lines 149-226)

The chunker is stated generically in the token type α: the control flow
(detection, flush decisions) depends only on the raw line text, while the
buffer holds tokens.  The service instantiates α with String (the
whitespace-split words); an instrumented instance tags every token with its
global position to express provenance properties. -/

/-- A page as produced by the extraction collaborator. -/
structure Page where
  page_number : Nat
  text : String
deriving DecidableEq

/-- Chunk metadata: page and source plus the snapshot of the structural
state committed at the last boundary (the initial empty dict is modelled by
all-none fields, indistinguishable from explicit nulls for this program). -/
structure ChunkMeta where
  page : Nat
  source : String
  unit : Option String
  sec : Option String
  section_title : Option String
deriving DecidableEq

/-- A chunk over token type α; the source stores the joined token string. -/
structure ChunkT (α : Type) where
  text : List α
  metadata : ChunkMeta
deriving DecidableEq

/-- Whether a flush was forced by a structural boundary (hard) or triggered
by size or page end (soft). -/
inductive FlushKind where
  | hard
  | soft
deriving DecidableEq

/-- Ghost trace events: a chunk emission with its flush kind, or a
structural boundary being committed. -/
inductive TraceEv (α : Type) where
  | emit (kind : FlushKind) (c : ChunkT α)
  | boundary
deriving DecidableEq

/-- The chunker state threaded through the per-line loop: the detector
pipeline state, the word buffer, the committed metadata, the committed
signature, the chunks emitted so far, and the ghost event trace (written,
never read). -/
structure ChunkerState (α : Type) where
  pipelineState : StructState
  buffer : List α
  current_metadata : StructState
  last_structure : Option (Option String × Option String × Option String)
  chunks : List (ChunkT α)
  trace : List (TraceEv α)
deriving DecidableEq

variable {α β : Type}

/-- flush (src/main.py lines 172-195): a no-op on an empty buffer;
otherwise emit the buffer as a chunk carrying the committed metadata plus
the page number and source, then clear the buffer entirely on a forced
reset or when overlap is zero, else retain the trailing overlap words. -/
def flush (source_file : String) (overlap : Nat) (page_number : Nat)
    (force_reset : Bool) (st : ChunkerState α) : ChunkerState α :=
  if st.buffer.isEmpty then st
  else
    let c : ChunkT α :=
      ⟨st.buffer,
       ⟨page_number, source_file, st.current_metadata.unit,
        st.current_metadata.sec, st.current_metadata.section_title⟩⟩
    { st with
      chunks := st.chunks ++ [c]
      trace := st.trace ++ [.emit (if force_reset then .hard else .soft) c]
      buffer :=
        if force_reset ∨ overlap = 0 then []
        else st.buffer.drop (st.buffer.length - overlap) }

/-- The chunk a non-trivial flush emits (stated for the lemmas below). -/
def flushChunk (source_file : String) (page_number : Nat) (st : ChunkerState α) : ChunkT α :=
  ⟨st.buffer,
   ⟨page_number, source_file, st.current_metadata.unit,
    st.current_metadata.sec, st.current_metadata.section_title⟩⟩

/-- The structural-boundary step of the per-line loop (src/main.py lines
204-218): run the line through the pipeline; if some detector fired and the
resulting signature differs from the committed one, flush with a hard reset
(recording a ghost boundary event) and commit the new snapshot. -/
def commitStep (detectors : List StructureDetector) (source_file : String)
    (overlap : Nat) (page_number : Nat) (st : ChunkerState α)
    (raw : List Char) : ChunkerState α :=
  let pr := process_line detectors st.pipelineState raw
  let state := pr.2
  let new_structure := (state.unit, state.sec, state.section_title)
  let st1 := { st with pipelineState := state }
  if pr.1 = true ∧ some new_structure ≠ st.last_structure then
    let st2 := flush source_file overlap page_number true
      { st1 with trace := st1.trace ++ [.boundary] }
    { st2 with current_metadata := state, last_structure := some new_structure }
  else st1

/-- One non-empty line (src/main.py lines 204-222): boundary step, append
the line's words to the buffer, and flush softly when the buffer has
reached max_words. -/
def processLine (detectors : List StructureDetector) (source_file : String)
    (max_words overlap : Nat) (page_number : Nat) (st : ChunkerState α)
    (line : List Char × List α) : ChunkerState α :=
  let st1 := commitStep detectors source_file overlap page_number st line.1
  let st2 := { st1 with buffer := st1.buffer ++ line.2 }
  if max_words ≤ st2.buffer.length then
    flush source_file overlap page_number false st2
  else st2

/-- One page (src/main.py lines 197-224): fold the non-empty lines, then
flush softly at the page end. -/
def processPage (detectors : List StructureDetector) (source_file : String)
    (max_words overlap : Nat) (st : ChunkerState α)
    (page : Nat × List (List Char × List α)) : ChunkerState α :=
  flush source_file overlap page.1 false
    (page.2.foldl (processLine detectors source_file max_words overlap page.1) st)

/-- The initial chunker state: all-null pipeline state, empty buffer, empty
committed metadata, no committed signature. -/
def initState : ChunkerState α := ⟨⟨none, none, none⟩, [], ⟨none, none, none⟩, none, [], []⟩

/-- The whole run over a list of pages given as (page number, prepared
lines). -/
def chunkerRun (detectors : List StructureDetector) (source_file : String)
    (max_words overlap : Nat)
    (pages : List (Nat × List (List Char × List α))) : ChunkerState α :=
  pages.foldl (processPage detectors source_file max_words overlap) initState

/-- Prepare the lines of one page text: splitlines, strip each line, skip
empty lines, and pair each surviving line with its whitespace-split words
(the skipped lines do nothing in the source loop, so filtering them out up
front is equivalent). -/
def pageLines (text : String) : List (List Char × List String) :=
  (((splitLinesCh text.data).map pyStrip).filter (fun l => l ≠ [])).map
    (fun l => (l, (pySplitCh l).map String.mk))

/-- Prepare all pages. -/
def toLinePages (pages : List Page) : List (Nat × List (List Char × List String)) :=
  pages.map (fun p => (p.page_number, pageLines p.text))

/-- structured_chunker (src/main.py line 149): the chunk sequence of the
run over the given pages. -/
def structured_chunker (pages : List Page) (detectors : List StructureDetector)
    (source_file : String) (max_words overlap : Nat) : List (ChunkT String) :=
  (chunkerRun detectors source_file max_words overlap (toLinePages pages)).chunks

/-- The ghost event trace of the same run. -/
def structured_chunkerTrace (pages : List Page) (detectors : List StructureDetector)
    (source_file : String) (max_words overlap : Nat) : List (TraceEv String) :=
  (chunkerRun detectors source_file max_words overlap (toLinePages pages)).trace

/-- The chunk text as the source stores it: tokens joined by single spaces,
then stripped. -/
def chunkText (c : ChunkT String) : String := String.mk (pyStrip (joinWords c.text))

/-! ## Position-tagged instrumentation of the chunker -/

/-- Tag a word list with consecutive global positions starting at n. -/
def tagFrom (n : Nat) : List String → List (Nat × String)
  | [] => []
  | w :: ws => (n, w) :: tagFrom (n + 1) ws

/-- Tag the lines of one page, threading the position counter. -/
def tagLines (n : Nat) : List (List Char × List String) → List (List Char × List (Nat × String))
  | [] => []
  | (raw, ws) :: rest => (raw, tagFrom n ws) :: tagLines (n + ws.length) rest

/-- Total token count of a prepared page's lines. -/
def lineTok (lines : List (List Char × List String)) : Nat :=
  (lines.map (fun l => l.2.length)).sum

/-- Tag all pages, threading the position counter. -/
def tagPagesAux (n : Nat) :
    List (Nat × List (List Char × List String)) →
    List (Nat × List (List Char × List (Nat × String)))
  | [] => []
  | (p, lines) :: rest => (p, tagLines n lines) :: tagPagesAux (n + lineTok lines) rest

/-- Total token count of all prepared pages. -/
def pagesTok (pagesL : List (Nat × List (List Char × List String))) : Nat :=
  (pagesL.map (fun pg => lineTok pg.2)).sum

/-- The chunker run in which every token carries its global position; by
the erasure lemma its chunks project exactly onto those of
structured_chunker, so it witnesses which occurrence of the input each
chunk word is. -/
def structured_chunker_tagged (pages : List Page)
    (detectors : List StructureDetector) (source_file : String)
    (max_words overlap : Nat) : List (ChunkT (Nat × String)) :=
  (chunkerRun detectors source_file max_words overlap
    (tagPagesAux 0 (toLinePages pages))).chunks

/-- Forget the tokens of a chunk, keeping a mapped image. -/
def mapChunk (f : α → β) (c : ChunkT α) : ChunkT β := ⟨c.text.map f, c.metadata⟩

/-- Map a trace event's tokens. -/
def mapEv (f : α → β) : TraceEv α → TraceEv β
  | .emit k c => .emit k (mapChunk f c)
  | .boundary => .boundary

/-- Map a chunker state's tokens. -/
def mapState (f : α → β) (st : ChunkerState α) : ChunkerState β :=
  ⟨st.pipelineState, st.buffer.map f, st.current_metadata, st.last_structure,
   st.chunks.map (mapChunk f), st.trace.map (mapEv f)⟩

/-- The position list of a tagged chunk. -/
def posList (c : ChunkT (Nat × String)) : List Nat := c.text.map Prod.fst

/-- The position list of the tagged buffer. -/
def bufPos (st : ChunkerState (Nat × String)) : List Nat := st.buffer.map Prod.fst

/-- The structural signature stored in a chunk's metadata. -/
def metaSig (m : ChunkMeta) : Option String × Option String × Option String :=
  (m.unit, m.sec, m.section_title)

/-- The committed structural signature of a chunker state. -/
def curSig (st : ChunkerState α) : Option String × Option String × Option String :=
  (st.current_metadata.unit, st.current_metadata.sec, st.current_metadata.section_title)

/-! ## Aggregator functions (src/main.py lines 241-256 and 307-323) -/

/-- A service-level chunk: the joined text plus metadata (what the corpus
stores and the query path hands to the aggregator). -/
structure Chunk where
  text : String
  metadata : ChunkMeta
deriving DecidableEq

/-- The section_title a chunk contributes under Python truthiness: a
missing or null title and the empty string are both skipped by the
comprehension's condition. -/
def truthyTitle (r : Chunk) : Option String :=
  match r.metadata.section_title with
  | some t => if t = "" then none else some t
  | none => none

/-- extract_section: collect the distinct truthy section titles; return the
single one iff there is exactly one. -/
def extract_section (results : List Chunk) : Option String :=
  match (results.filterMap truthyTitle).dedup with
  | [t] => some t
  | _ => none

/-- The source a chunk contributes under Python truthiness (the empty
string is skipped like a missing value). -/
def truthySource (r : Chunk) : Option String :=
  if r.metadata.source = "" then none else some r.metadata.source

/-- extract_sources: the distinct truthy sources in ascending order
(sorted over a set; insertion sort models the library sort). -/
def extract_sources (results : List Chunk) : List String :=
  ((results.filterMap truthySource).dedup).insertionSort (fun a b => a ≤ b)

/-! ## polish_sentence (src/main.py lines 276-304) -/

/-- Outcome of the external rewrite collaborator invocation: the tool can
be absent (FileNotFoundError), exceed the fixed timeout (TimeoutExpired),
or complete with captured stdout and an exit status. -/
inductive RewriteOutcome where
  | absent
  | timeout
  | completed (stdout : String) (returncode : Int)
deriving DecidableEq

/-- polish_sentence given the collaborator's outcome: both failure
exceptions fall back to the input, a non-zero exit status falls back to the
input, and success returns the stripped stdout. -/
def polish_sentence (raw_text : String) (outcome : RewriteOutcome) : String :=
  match outcome with
  | .absent => raw_text
  | .timeout => raw_text
  | .completed out rc => if rc ≠ 0 then raw_text else String.mk (pyStrip out.data)

/-! ## The upload operation (src/main.py lines 344-404) -/

/-- What external extraction yields for one uploaded file: per-document
failure (any exception while loading or chunking) or the extracted pages. -/
inductive ExtractOutcome where
  | failure (msg : String)
  | pages (ps : List Page)
deriving DecidableEq

/-- The response of the upload endpoint. -/
inductive UploadResult where
  | error (msg : String)
  | success (files_indexed : List String) (chunks_created : Nat)
deriving DecidableEq

/-- The module-level mutable state of the service: the chunk corpus and the
vector index (modelled by the embedding matrix it was built from; none
before any ingest). -/
structure ServerState where
  chunks : List Chunk
  index : Option (List (List Int))
deriving DecidableEq

/-- The per-file loop of upload_pdf: chunk each file's pages with the two
built-in detectors and the default limits (max_words 350, overlap 50),
failing fast on the first extraction failure. -/
def gatherChunks : List (String × ExtractOutcome) → Except String (List Chunk)
  | [] => .ok []
  | (fname, .failure msg) :: _ =>
    .error ("Failed to process " ++ fname ++ ": " ++ msg)
  | (fname, .pages ps) :: rest =>
    match gatherChunks rest with
    | .error e => .error e
    | .ok more =>
      .ok (((structured_chunker ps [.unitDetector, .numberedSectionDetector]
              fname 350 50).map (fun c => ⟨chunkText c, c.metadata⟩)) ++ more)

/-- numpy's size of the embedding matrix (its number of entries). -/
def embSize (m : List (List Int)) : Nat := (m.map List.length).sum

/-- upload_pdf, with the embedding collaborator passed as a function: on an
extraction failure return the error with the state untouched; if no chunks
were produced return the empty-corpus error with the state untouched;
otherwise first replace the global chunk list, then encode, and if the
matrix is empty return the embeddings error (the chunk list stays
replaced, the index stays old); else rebuild the index and report
success. -/
def upload_pdf (encode : List String → List (List Int)) (st : ServerState)
    (files : List (String × ExtractOutcome)) : UploadResult × ServerState :=
  match gatherChunks files with
  | .error e => (.error e, st)
  | .ok all_chunks =>
    if all_chunks.isEmpty then (.error "No valid PDF pages found.", st)
    else
      let st1 := { st with chunks := all_chunks }
      let embeddings := encode (all_chunks.map Chunk.text)
      if embSize embeddings = 0 then (.error "No text content found in PDF.", st1)
      else
        (.success (files.map Prod.fst) all_chunks.length,
         { st1 with index := some embeddings })

/-! ## Derived notions used by the statements -/

/-- Mapped image of prepared lines (token translation). -/
def mapLinesInput (f : α → β) (lines : List (List Char × List α)) :
    List (List Char × List β) :=
  lines.map (fun l => (l.1, l.2.map f))

/-- Mapped image of prepared pages. -/
def mapPagesInput (f : α → β) (pagesL : List (Nat × List (List Char × List α))) :
    List (Nat × List (List Char × List β)) :=
  pagesL.map (fun pg => (pg.1, mapLinesInput f pg.2))

/-- The retention a soft flush applies to a buffer: its trailing overlap
words (everything when the buffer is shorter, nothing when overlap is 0). -/
def retainTail (overlap : Nat) (l : List α) : List α := l.drop (l.length - overlap)

/-- The largest word count of any prepared line of the given pages. -/
def maxLineLen (pages : List Page) : Nat :=
  (toLinePages pages).foldr (fun pg acc => pg.2.foldr (fun l a => max l.2.length a) acc) 0

/-- Trace-adjacency overlap property: any chunk emitted immediately after a
softly flushed chunk (no chunk and no boundary in between) begins with the
retained tail of the latter. -/
def traceAdj (overlap : Nat) (tr : List (TraceEv String)) : Prop :=
  ∀ t1 c k2 c2 t2,
    tr = t1 ++ TraceEv.emit .soft c :: TraceEv.emit k2 c2 :: t2 →
    ∃ ext, c2.text = retainTail overlap c.text ++ ext

/-- Between a trailing soft emission and now, only appends happened: the
buffer still begins with the retained tail of that chunk. -/
def bufAfterSoft (overlap : Nat) (tr : List (TraceEv String)) (buf : List String) : Prop :=
  ∀ t1 c, tr = t1 ++ [TraceEv.emit .soft c] →
    ∃ ext, buf = retainTail overlap c.text ++ ext

/-- Invariant for hard-boundary isolation on the position-tagged run: m is
the position watermark of the last committed boundary, n the next fresh
position.  Chunks whose signature is not the committed one lie entirely
below the watermark, the buffer lies entirely above it, and chunks with
different signatures never share positions. -/
structure Inv7 (st : ChunkerState (Nat × String)) (m n : Nat) : Prop where
  hmn : m ≤ n
  hbuf : ∀ q ∈ bufPos st, m ≤ q ∧ q < n
  hchunks : ∀ c ∈ st.chunks, ∀ q ∈ posList c, q < n
  hold : ∀ c ∈ st.chunks, metaSig c.metadata ≠ curSig st → ∀ q ∈ posList c, q < m
  hpair : st.chunks.Pairwise (fun c c2 => metaSig c.metadata ≠ metaSig c2.metadata →
    ∀ q ∈ posList c, q ∉ posList c2)

/-- Invariant for the zero-overlap run: every flush clears the buffer, so
all chunks are pairwise position-disjoint and disjoint from the buffer. -/
structure Inv0 (st : ChunkerState (Nat × String)) (n : Nat) : Prop where
  hbuf : ∀ q ∈ bufPos st, q < n
  hchunks : ∀ c ∈ st.chunks, ∀ q ∈ posList c, q < n
  hdisj : ∀ c ∈ st.chunks, ∀ q ∈ posList c, q ∉ bufPos st
  hpair : st.chunks.Pairwise (fun c c2 => ∀ q ∈ posList c, q ∉ posList c2)

/-- The claim's reading of UnitDetector (stated from the spec's words, for
comparison with the code's unitDetect): the line must begin with the
keyword, whitespace, and a whole whitespace-delimited token consisting
solely of roman-numeral characters; the numeral is returned uppercased. -/
def unitDetectSpec (line : String) : Option String :=
  let s := pyStrip line.data
  let afterKw :=
    match ciStrip "UNIT".data s with
    | some r => some r
    | none => ciStrip "CHAPTER".data s
  match afterKw with
  | none => none
  | some r =>
    if r.takeWhile pyIsSpace = [] then none
    else
      let tok := (r.dropWhile pyIsSpace).takeWhile (fun c => !pyIsSpace c)
      if tok ≠ [] ∧ tok.all isRomanChar then some (String.mk (tok.map Char.toUpper))
      else none

/-- The distinct-forming inputs the claim about extract_section speaks of:
all non-null section_title values (including an empty string, which the
code's truthiness test additionally drops). -/
def sectionTitlesNonNull (results : List Chunk) : List String :=
  results.filterMap (fun r => r.metadata.section_title)

/-- The inputs the claim about extract_sources speaks of: all (non-null)
source values, including the empty string the code's truthiness test
drops. -/
def sourcesNonNull (results : List Chunk) : List String :=
  results.map (fun r => r.metadata.source)

/-- The worked example's page (spec section 8). -/
def c2pages : List Page := [⟨1, "UNIT I\n1.1 Intro\nHello world this is page one"⟩]

/-- The worked example's detector list. -/
def c2dets : List StructureDetector := [.unitDetector, .numberedSectionDetector]

/-- The chunker state of the worked example after its three lines, before
the end-of-page flush (so: immediately after the size-triggered flush on
the third line). -/
def c2midState : ChunkerState String :=
  (pageLines "UNIT I\n1.1 Intro\nHello world this is page one").foldl
    (processLine c2dets "doc.pdf" 5 2 1) initState

/-! # Lemmas

General helpers first, then the erasure lemmas connecting the tagged run
to the plain run, then invariant preservation, then the claim theorems. -/

theorem tagFrom_map_snd (n : Nat) (ws : List String) :
    (tagFrom n ws).map Prod.snd = ws := by
  induction ws generalizing n with
  | nil => rfl
  | cons w ws ih => simp [tagFrom, ih]

theorem tagFrom_bounds {q n : Nat} {ws : List String}
    (h : q ∈ (tagFrom n ws).map Prod.fst) : n ≤ q ∧ q < n + ws.length := by
  induction ws generalizing n with
  | nil => simp [tagFrom] at h
  | cons w ws ih =>
    simp only [tagFrom, List.map_cons, List.mem_cons] at h
    rcases h with rfl | h
    · simp
    · have := ih h
      constructor <;> [omega; (simp only [List.length_cons]; omega)]

theorem tagLines_erase (n : Nat) (lines : List (List Char × List String)) :
    mapLinesInput Prod.snd (tagLines n lines) = lines := by
  induction lines generalizing n with
  | nil => rfl
  | cons l rest ih =>
    obtain ⟨raw, ws⟩ := l
    simp [tagLines, mapLinesInput, tagFrom_map_snd] at ih ⊢
    exact ih (n + ws.length)

theorem tagPages_erase (n : Nat) (pagesL : List (Nat × List (List Char × List String))) :
    mapPagesInput Prod.snd (tagPagesAux n pagesL) = pagesL := by
  induction pagesL generalizing n with
  | nil => rfl
  | cons pg rest ih =>
    obtain ⟨p, lines⟩ := pg
    simp [tagPagesAux, mapPagesInput, tagLines_erase] at ih ⊢
    exact ih _

theorem flush_mapState (f : α → β) (src : String) (ov p : Nat) (fr : Bool)
    (st : ChunkerState α) :
    flush src ov p fr (mapState f st) = mapState f (flush src ov p fr st) := by
  obtain ⟨ps, buf, cm, ls, cks, tr⟩ := st
  cases buf with
  | nil => rfl
  | cons a l =>
    simp only [flush, mapState, List.isEmpty_cons, List.map_cons]
    split
    · simp_all
    · simp only [mapChunk, mapEv, List.map_append, List.map_cons, List.map_nil,
        List.length_cons, List.length_map]
      have hb : (if fr = true ∨ ov = 0 then ([] : List β) else (f a :: List.map f l).drop (l.length + 1 - ov)) = List.map f (if fr = true ∨ ov = 0 then [] else (a :: l).drop (l.length + 1 - ov)) := by
        split
        · rfl
        · rw [← List.map_cons, ← List.map_drop]
      rw [hb]

theorem commitStep_mapState (f : α → β) (dets : List StructureDetector)
    (src : String) (ov p : Nat) (st : ChunkerState α) (raw : List Char) :
    commitStep dets src ov p (mapState f st) raw =
      mapState f (commitStep dets src ov p st raw) := by
  obtain ⟨ps, buf, cm, ls, cks, tr⟩ := st
  simp only [commitStep, mapState]
  split
  · have e1 : (⟨(process_line dets ps raw).2, List.map f buf, cm, ls, List.map (mapChunk f) cks, List.map (mapEv f) tr ++ [TraceEv.boundary]⟩ : ChunkerState β) = mapState f ⟨(process_line dets ps raw).2, buf, cm, ls, cks, tr ++ [TraceEv.boundary]⟩ := by
      simp [mapState, mapEv]
    rw [e1, flush_mapState]
    rfl
  · rfl

theorem processLine_mapState (f : α → β) (dets : List StructureDetector)
    (src : String) (mw ov p : Nat) (st : ChunkerState α)
    (line : List Char × List α) :
    processLine dets src mw ov p (mapState f st) (line.1, line.2.map f) =
      mapState f (processLine dets src mw ov p st line) := by
  obtain ⟨raw, toks⟩ := line
  simp only [processLine]
  rw [commitStep_mapState]
  generalize commitStep dets src ov p st raw = st1
  obtain ⟨ps, buf, cm, ls, cks, tr⟩ := st1
  simp only [mapState]
  have e1 : (⟨ps, List.map f buf ++ List.map f toks, cm, ls, List.map (mapChunk f) cks, List.map (mapEv f) tr⟩ : ChunkerState β) = mapState f ⟨ps, buf ++ toks, cm, ls, cks, tr⟩ := by
    simp [mapState]
  rw [e1]
  have e2 : (List.map f buf ++ List.map f toks).length = (buf ++ toks).length := by simp
  rw [e2]
  by_cases hc : mw ≤ (buf ++ toks).length
  · simp only [if_pos hc]
    exact flush_mapState f src ov p false ⟨ps, buf ++ toks, cm, ls, cks, tr⟩
  · simp only [if_neg hc]
    rfl

theorem foldLines_mapState (f : α → β) (dets : List StructureDetector)
    (src : String) (mw ov p : Nat) :
    ∀ (lines : List (List Char × List α)) (st : ChunkerState α),
      (mapLinesInput f lines).foldl (processLine dets src mw ov p) (mapState f st) =
        mapState f (lines.foldl (processLine dets src mw ov p) st) := by
  intro lines
  induction lines with
  | nil => intro st; rfl
  | cons l rest ih =>
    intro st
    simp only [mapLinesInput, List.map_cons, List.foldl_cons]
    rw [processLine_mapState f dets src mw ov p st l]
    have := ih (processLine dets src mw ov p st l)
    simpa [mapLinesInput] using this

theorem processPage_mapState (f : α → β) (dets : List StructureDetector)
    (src : String) (mw ov : Nat) (st : ChunkerState α)
    (page : Nat × List (List Char × List α)) :
    processPage dets src mw ov (mapState f st) (page.1, mapLinesInput f page.2) =
      mapState f (processPage dets src mw ov st page) := by
  obtain ⟨p, lines⟩ := page
  simp only [processPage]
  rw [foldLines_mapState f dets src mw ov p lines st, flush_mapState]

theorem chunkerRun_fold_mapState (f : α → β) (dets : List StructureDetector)
    (src : String) (mw ov : Nat) :
    ∀ (pagesL : List (Nat × List (List Char × List α))) (st : ChunkerState α),
      (mapPagesInput f pagesL).foldl (processPage dets src mw ov) (mapState f st) =
        mapState f (pagesL.foldl (processPage dets src mw ov) st) := by
  intro pagesL
  induction pagesL with
  | nil => intro st; rfl
  | cons pg rest ih =>
    intro st
    simp only [mapPagesInput, List.map_cons, List.foldl_cons]
    rw [processPage_mapState f dets src mw ov st pg]
    have := ih (processPage dets src mw ov st pg)
    simpa [mapPagesInput] using this

/-- The tagged run projects exactly onto the plain run: forgetting the
positions of the tagged chunks recovers structured_chunker. -/
theorem tagged_erase (pages : List Page) (dets : List StructureDetector)
    (src : String) (mw ov : Nat) :
    (structured_chunker_tagged pages dets src mw ov).map (mapChunk Prod.snd) =
      structured_chunker pages dets src mw ov := by
  unfold structured_chunker_tagged structured_chunker chunkerRun
  have h1 := chunkerRun_fold_mapState (α := Nat × String) Prod.snd dets src mw ov
    (tagPagesAux 0 (toLinePages pages)) initState
  rw [tagPages_erase] at h1
  have h2 : (mapState (α := Nat × String) Prod.snd initState) = initState := rfl
  rw [h2] at h1
  rw [h1]
  rfl

/-! ## Fold-preservation combinators -/

theorem foldLines_pres (Φ : ChunkerState α → Prop) (tokOK : List α → Prop)
    (dets : List StructureDetector) (src : String) (mw ov p : Nat)
    (hline : ∀ st raw ws, tokOK ws → Φ st → Φ (processLine dets src mw ov p st (raw, ws))) :
    ∀ (lines : List (List Char × List α)) (st : ChunkerState α),
      (∀ l ∈ lines, tokOK l.2) → Φ st →
      Φ (lines.foldl (processLine dets src mw ov p) st) := by
  intro lines
  induction lines with
  | nil => intro st _ h; exact h
  | cons l rest ih =>
    intro st hok h
    simp only [List.foldl_cons]
    exact ih _ (fun x hx => hok x (List.mem_cons_of_mem _ hx))
      (hline st l.1 l.2 (hok l (List.mem_cons_self _ _)) h)

theorem foldPages_pres (Φ : ChunkerState α → Prop) (tokOK : List α → Prop)
    (dets : List StructureDetector) (src : String) (mw ov : Nat)
    (hline : ∀ st p raw ws, tokOK ws → Φ st → Φ (processLine dets src mw ov p st (raw, ws)))
    (hflush : ∀ st p, Φ st → Φ (flush src ov p false st)) :
    ∀ (pagesL : List (Nat × List (List Char × List α))) (st : ChunkerState α),
      (∀ pg ∈ pagesL, ∀ l ∈ pg.2, tokOK l.2) → Φ st →
      Φ (pagesL.foldl (processPage dets src mw ov) st) := by
  intro pagesL
  induction pagesL with
  | nil => intro st _ h; exact h
  | cons pg rest ih =>
    intro st hok h
    simp only [List.foldl_cons]
    refine ih _ (fun x hx => hok x (List.mem_cons_of_mem _ hx)) ?_
    show Φ (processPage dets src mw ov st pg)
    have hlines := foldLines_pres Φ tokOK dets src mw ov pg.1 (fun st r w => hline st pg.1 r w)
      pg.2 st (fun l hl => hok pg (List.mem_cons_self _ _) l hl) h
    exact hflush _ pg.1 hlines

theorem tagFoldLines_pres (Φ : ChunkerState (Nat × String) → Nat → Prop)
    (dets : List StructureDetector) (src : String) (mw ov p : Nat)
    (hline : ∀ st n raw ws, Φ st n →
      Φ (processLine dets src mw ov p st (raw, tagFrom n ws)) (n + ws.length)) :
    ∀ (lines : List (List Char × List String)) (n : Nat) (st : ChunkerState (Nat × String)),
      Φ st n →
      Φ ((tagLines n lines).foldl (processLine dets src mw ov p) st) (n + lineTok lines) := by
  intro lines
  induction lines with
  | nil => intro n st h; simpa [lineTok] using h
  | cons l rest ih =>
    intro n st h
    obtain ⟨raw, ws⟩ := l
    simp only [tagLines, List.foldl_cons]
    have h2 := ih (n + ws.length) _ (hline st n raw ws h)
    have he : n + ws.length + lineTok rest = n + lineTok ((raw, ws) :: rest) := by
      simp [lineTok, Nat.add_assoc]
    rw [he] at h2
    exact h2

theorem tagFoldPages_pres (Φ : ChunkerState (Nat × String) → Nat → Prop)
    (dets : List StructureDetector) (src : String) (mw ov : Nat)
    (hline : ∀ st n p raw ws, Φ st n →
      Φ (processLine dets src mw ov p st (raw, tagFrom n ws)) (n + ws.length))
    (hflush : ∀ st n p, Φ st n → Φ (flush src ov p false st) n) :
    ∀ (pagesL : List (Nat × List (List Char × List String))) (n : Nat)
      (st : ChunkerState (Nat × String)), Φ st n →
      Φ ((tagPagesAux n pagesL).foldl (processPage dets src mw ov) st) (n + pagesTok pagesL) := by
  intro pagesL
  induction pagesL with
  | nil => intro n st h; simpa [pagesTok] using h
  | cons pg rest ih =>
    intro n st h
    obtain ⟨p, lines⟩ := pg
    simp only [tagPagesAux, List.foldl_cons]
    have hpage : Φ (processPage dets src mw ov st (p, tagLines n lines)) (n + lineTok lines) := by
      show Φ (flush src ov p false ((tagLines n lines).foldl (processLine dets src mw ov p) st)) _
      exact hflush _ _ p (tagFoldLines_pres Φ dets src mw ov p (fun st n r w => hline st n p r w) lines n st h)
    have h2 := ih (n + lineTok lines) _ hpage
    have he : n + lineTok lines + pagesTok rest = n + pagesTok ((p, lines) :: rest) := by
      simp [pagesTok, Nat.add_assoc]
    rw [he] at h2
    exact h2

/-! ## Facts about flush and commitStep -/

theorem flush_true_buffer (src : String) (ov p : Nat) (st : ChunkerState α) :
    (flush src ov p true st).buffer = [] := by
  unfold flush
  split
  · next h => simpa [List.isEmpty_iff] using h
  · simp

theorem flush_buffer_le (src : String) (ov p : Nat) (fr : Bool) (st : ChunkerState α) :
    (flush src ov p fr st).buffer.length ≤ st.buffer.length := by
  unfold flush
  split
  · exact le_refl _
  · split
    · simp
    · simp

theorem flush_false_buffer_le_ov (src : String) (ov p : Nat) (st : ChunkerState α)
    (h : ov ≤ st.buffer.length) :
    (flush src ov p false st).buffer.length ≤ ov := by
  unfold flush
  split
  · next he => simp [List.isEmpty_iff] at he; simp [he]
  · split
    · simp
    · simp only [List.length_drop]
      omega

theorem flush_chunks_sub (src : String) (ov p : Nat) (fr : Bool) (st : ChunkerState α) :
    ∀ c ∈ (flush src ov p fr st).chunks, c ∈ st.chunks ∨ c.text = st.buffer := by
  intro c hc
  unfold flush at hc
  split at hc
  · exact Or.inl hc
  · simp only [List.mem_append, List.mem_singleton] at hc
    rcases hc with hc | rfl
    · exact Or.inl hc
    · exact Or.inr rfl

theorem commit_buffer_le (dets : List StructureDetector) (src : String) (ov p : Nat)
    (st : ChunkerState α) (raw : List Char) :
    (commitStep dets src ov p st raw).buffer.length ≤ st.buffer.length := by
  simp only [commitStep]
  split
  · rw [flush_true_buffer]
    simp
  · exact le_refl _

theorem commit_chunks_sub (dets : List StructureDetector) (src : String) (ov p : Nat)
    (st : ChunkerState α) (raw : List Char) :
    ∀ c ∈ (commitStep dets src ov p st raw).chunks, c ∈ st.chunks ∨ c.text = st.buffer := by
  intro c hc
  simp only [commitStep] at hc
  split at hc
  · exact flush_chunks_sub src ov p true ⟨(process_line dets st.pipelineState raw).2, st.buffer, st.current_metadata, st.last_structure, st.chunks, st.trace ++ [TraceEv.boundary]⟩ c hc
  · exact Or.inl hc

/-! ## C1: the size bound -/

theorem c1_line_step (dets : List StructureDetector) (src : String)
    (mw ov p L : Nat) (hov : ov < mw)
    (st : ChunkerState α) (raw : List Char) (ws : List α) (hws : ws.length ≤ L)
    (h1 : st.buffer.length ≤ mw - 1)
    (h2 : ∀ c ∈ st.chunks, c.text.length ≤ mw - 1 + L) :
    (processLine dets src mw ov p st (raw, ws)).buffer.length ≤ mw - 1 ∧
      ∀ c ∈ (processLine dets src mw ov p st (raw, ws)).chunks,
        c.text.length ≤ mw - 1 + L := by
  have hb1 : (commitStep dets src ov p st raw).buffer.length ≤ mw - 1 :=
    le_trans (commit_buffer_le dets src ov p st raw) h1
  have hc1 : ∀ c ∈ (commitStep dets src ov p st raw).chunks, c.text.length ≤ mw - 1 + L := by
    intro c hc
    rcases commit_chunks_sub dets src ov p st raw c hc with h' | h'
    · exact h2 c h'
    · rw [h']
      omega
  generalize hst1 : commitStep dets src ov p st raw = st1 at hb1 hc1
  obtain ⟨ps, buf, cm, ls, cks, tr⟩ := st1
  have hb1' : buf.length ≤ mw - 1 := hb1
  have hc1' : ∀ c ∈ cks, c.text.length ≤ mw - 1 + L := hc1
  have hPL : processLine dets src mw ov p st (raw, ws) =
      if mw ≤ (buf ++ ws).length
      then flush src ov p false ⟨ps, buf ++ ws, cm, ls, cks, tr⟩
      else ⟨ps, buf ++ ws, cm, ls, cks, tr⟩ := by
    simp only [processLine, hst1]
  rw [hPL]
  by_cases hsize : mw ≤ (buf ++ ws).length
  · simp only [if_pos hsize]
    constructor
    · have hov2 : ov ≤ ((⟨ps, buf ++ ws, cm, ls, cks, tr⟩ : ChunkerState α)).buffer.length := by
        simp only [List.length_append] at hsize ⊢
        omega
      have := flush_false_buffer_le_ov src ov p ⟨ps, buf ++ ws, cm, ls, cks, tr⟩ hov2
      omega
    · intro c hc
      rcases flush_chunks_sub src ov p false ⟨ps, buf ++ ws, cm, ls, cks, tr⟩ c hc with h' | h'
      · exact hc1' c h'
      · have : c.text.length = buf.length + ws.length := by rw [h']; simp
        omega
  · simp only [if_neg hsize]
    constructor
    · simp only [List.length_append] at hsize ⊢
      omega
    · intro c hc
      exact hc1' c hc

theorem c1_flush_step (src : String) (ov p mw L : Nat)
    (st : ChunkerState α)
    (h1 : st.buffer.length ≤ mw - 1)
    (h2 : ∀ c ∈ st.chunks, c.text.length ≤ mw - 1 + L) :
    (flush src ov p false st).buffer.length ≤ mw - 1 ∧
      ∀ c ∈ (flush src ov p false st).chunks, c.text.length ≤ mw - 1 + L := by
  constructor
  · exact le_trans (flush_buffer_le src ov p false st) h1
  · intro c hc
    rcases flush_chunks_sub src ov p false st c hc with h' | h'
    · exact h2 c h'
    · rw [h']
      omega

theorem foldr_max_acc_le (lines : List (List Char × List String)) (acc : Nat) :
    acc ≤ lines.foldr (fun l a => max l.2.length a) acc := by
  induction lines with
  | nil => exact le_refl _
  | cons l rest ih => exact le_trans ih (Nat.le_max_right _ _)

theorem mem_foldr_max (lines : List (List Char × List String)) (acc : Nat)
    (l : List Char × List String) (hl : l ∈ lines) :
    l.2.length ≤ lines.foldr (fun l a => max l.2.length a) acc := by
  induction lines with
  | nil => cases hl
  | cons x rest ih =>
    rcases List.mem_cons.mp hl with rfl | hl
    · exact Nat.le_max_left _ _
    · exact le_trans (ih hl) (Nat.le_max_right _ _)

theorem line_le_maxLineLen (pages : List Page) (pg : Nat × List (List Char × List String))
    (hpg : pg ∈ toLinePages pages) (l : List Char × List String) (hl : l ∈ pg.2) :
    l.2.length ≤ maxLineLen pages := by
  unfold maxLineLen
  generalize toLinePages pages = pagesL at hpg ⊢
  induction pagesL with
  | nil => cases hpg
  | cons x rest ih =>
    rcases List.mem_cons.mp hpg with rfl | hpg
    · exact mem_foldr_max _ _ l hl
    · exact le_trans (ih hpg) (foldr_max_acc_le _ _)

/-- C1 (amended): with 0 ≤ overlap < max_words, every chunk of
structured_chunker has word count at most max_words - 1 plus the largest
word count of a single line; the original bound max_words can be exceeded
because a size-triggered flush emits the whole buffer, including all words
of the line that crossed the limit. -/
theorem c1_size_bound (pages : List Page) (dets : List StructureDetector)
    (src : String) (mw ov : Nat) (hov : ov < mw) :
    ∀ c ∈ structured_chunker pages dets src mw ov,
      c.text.length ≤ mw - 1 + maxLineLen pages := by
  have h := foldPages_pres (α := String)
    (fun st => st.buffer.length ≤ mw - 1 ∧
      ∀ c ∈ st.chunks, c.text.length ≤ mw - 1 + maxLineLen pages)
    (fun ws => ws.length ≤ maxLineLen pages) dets src mw ov
    (fun st p raw ws hw hp => c1_line_step dets src mw ov p (maxLineLen pages) hov st raw ws hw hp.1 hp.2)
    (fun st p hp => c1_flush_step src ov p mw (maxLineLen pages) st hp.1 hp.2)
    (toLinePages pages) initState
    (fun pg hpg l hl => line_le_maxLineLen pages pg hpg l hl)
    ⟨by simp [initState], by simp [initState]⟩
  exact h.2

/-- C1 counterexample: a single 10-word line with max_words 5 produces a
10-word chunk, and the trace shows its flush was size-triggered (soft), not
a structural boundary, so the claimed bound word count ≤ max_words fails. -/
theorem c1_cex :
    structured_chunker [⟨1, "a b c d e f g h i j"⟩] [] "s.pdf" 5 0 =
      [⟨["a","b","c","d","e","f","g","h","i","j"], ⟨1, "s.pdf", none, none, none⟩⟩] ∧
    structured_chunkerTrace [⟨1, "a b c d e f g h i j"⟩] [] "s.pdf" 5 0 =
      [.emit .soft ⟨["a","b","c","d","e","f","g","h","i","j"], ⟨1, "s.pdf", none, none, none⟩⟩] ∧
    ¬ ((["a","b","c","d","e","f","g","h","i","j"] : List String).length ≤ 5) := by
  refine ⟨by decide, by decide, by decide⟩

/-- C1 witness: the amended bound applied at a concrete input. -/
theorem c1_size_bound_witness :
    (1 : Nat) < 5 ∧
      (⟨["a","b"], ⟨1, "s.pdf", none, none, none⟩⟩ : ChunkT String).text.length ≤
        5 - 1 + maxLineLen [⟨1, "a b"⟩] :=
  ⟨by decide,
   c1_size_bound [⟨1, "a b"⟩] [] "s.pdf" 5 1 (by decide)
     ⟨["a","b"], ⟨1, "s.pdf", none, none, none⟩⟩ (by decide)⟩

/-! ## C7: hard-boundary isolation (position-tagged invariant) -/

theorem flush_eq_of_ne (src : String) (ov p : Nat) (fr : Bool) (st : ChunkerState α)
    (hb : st.buffer.isEmpty = false) :
    flush src ov p fr st =
      ⟨st.pipelineState,
       (if fr = true ∨ ov = 0 then [] else st.buffer.drop (st.buffer.length - ov)),
       st.current_metadata, st.last_structure,
       st.chunks ++ [flushChunk src p st],
       st.trace ++ [TraceEv.emit (if fr = true then FlushKind.hard else FlushKind.soft)
         (flushChunk src p st)]⟩ := by
  unfold flush
  rw [if_neg (by simp [hb])]
  rfl

theorem inv7_of_fields (st st2 : ChunkerState (Nat × String))
    (hb : st2.buffer = st.buffer) (hc : st2.chunks = st.chunks)
    (hm : st2.current_metadata = st.current_metadata)
    {m n : Nat} (h : Inv7 st m n) : Inv7 st2 m n := by
  refine ⟨h.hmn, ?_, ?_, ?_, ?_⟩
  · intro q hq
    exact h.hbuf q (by simpa [bufPos, hb] using hq)
  · intro c hcm
    exact h.hchunks c (by simpa [hc] using hcm)
  · intro c hcm hsig
    refine h.hold c (by simpa [hc] using hcm) ?_
    simpa [curSig, hm] using hsig
  · rw [hc]
    exact h.hpair

theorem inv7_flush (src : String) (ov p : Nat) (fr : Bool)
    (st : ChunkerState (Nat × String)) {m n : Nat} (h : Inv7 st m n) :
    Inv7 (flush src ov p fr st) m n := by
  by_cases hb : st.buffer.isEmpty
  · unfold flush
    rw [if_pos hb]
    exact h
  · rw [flush_eq_of_ne src ov p fr st (by simpa using hb)]
    refine ⟨h.hmn, ?_, ?_, ?_, ?_⟩
    · intro q hq
      simp only [bufPos] at hq
      split at hq
      · simp at hq
      · rw [List.map_drop] at hq
        exact h.hbuf q (List.mem_of_mem_drop hq)
    · intro c hcm
      simp only [List.mem_append, List.mem_singleton] at hcm
      rcases hcm with hcm | rfl
      · exact h.hchunks c hcm
      · intro q hq
        exact (h.hbuf q hq).2
    · intro c hcm hsig
      simp only [List.mem_append, List.mem_singleton] at hcm
      rcases hcm with hcm | rfl
      · exact h.hold c hcm hsig
      · exact absurd rfl hsig
    · rw [List.pairwise_append]
      refine ⟨h.hpair, List.pairwise_singleton _ _, ?_⟩
      intro a ha b hb2
      simp only [List.mem_singleton] at hb2
      subst hb2
      intro hsig q hq hq2
      have h1 := h.hold a ha hsig q hq
      have h2 := (h.hbuf q hq2).1
      omega

theorem inv7_setcur (st st2 : ChunkerState (Nat × String))
    (hb : st2.buffer = []) (hc : st2.chunks = st.chunks)
    {m n : Nat} (h : Inv7 st m n) : Inv7 st2 n n := by
  refine ⟨le_refl n, ?_, ?_, ?_, ?_⟩
  · intro q hq
    simp [bufPos, hb] at hq
  · intro c hcm
    exact h.hchunks c (by simpa [hc] using hcm)
  · intro c hcm _
    exact h.hchunks c (by simpa [hc] using hcm)
  · rw [hc]
    exact h.hpair

theorem inv7_commit (dets : List StructureDetector) (src : String) (ov p : Nat)
    (st : ChunkerState (Nat × String)) (raw : List Char) {m n : Nat}
    (h : Inv7 st m n) :
    ∃ m2, Inv7 (commitStep dets src ov p st raw) m2 n := by
  simp only [commitStep]
  split
  · refine ⟨n, ?_⟩
    have hM : Inv7 (⟨(process_line dets st.pipelineState raw).2, st.buffer,
        st.current_metadata, st.last_structure, st.chunks,
        st.trace ++ [TraceEv.boundary]⟩ : ChunkerState (Nat × String)) m n := by
      refine inv7_of_fields st _ ?_ ?_ ?_ h <;> rfl
    have hF := inv7_flush src ov p true _ hM
    refine inv7_setcur _ _ ?_ ?_ hF
    · exact flush_true_buffer src ov p _
    · rfl
  · refine ⟨m, ?_⟩
    refine inv7_of_fields st _ ?_ ?_ ?_ h <;> rfl

theorem inv7_extend (st st2 : ChunkerState (Nat × String)) (n2 : Nat) (ws : List String)
    (hb : st2.buffer = st.buffer ++ tagFrom n2 ws) (hc : st2.chunks = st.chunks)
    (hm : st2.current_metadata = st.current_metadata)
    {m : Nat} (h : Inv7 st m n2) : Inv7 st2 m (n2 + ws.length) := by
  refine ⟨le_trans h.hmn (Nat.le_add_right _ _), ?_, ?_, ?_, ?_⟩
  · intro q hq
    simp only [bufPos, hb, List.map_append, List.mem_append] at hq
    rcases hq with hq | hq
    · have := h.hbuf q hq
      omega
    · have := tagFrom_bounds hq
      have := h.hmn
      omega
  · intro c hcm q hq
    have := h.hchunks c (by simpa [hc] using hcm) q hq
    omega
  · intro c hcm hsig
    refine h.hold c (by simpa [hc] using hcm) ?_
    simpa [curSig, hm] using hsig
  · rw [hc]
    exact h.hpair

theorem inv7_line (dets : List StructureDetector) (src : String) (mw ov p : Nat)
    (st : ChunkerState (Nat × String)) (n : Nat) (raw : List Char) (ws : List String)
    (h : ∃ m, Inv7 st m n) :
    ∃ m, Inv7 (processLine dets src mw ov p st (raw, tagFrom n ws)) m (n + ws.length) := by
  obtain ⟨m, h⟩ := h
  obtain ⟨m2, h2⟩ := inv7_commit dets src ov p st raw h
  generalize hst1 : commitStep dets src ov p st raw = st1 at h2
  obtain ⟨ps, buf, cm, ls, cks, tr⟩ := st1
  have hPL : processLine dets src mw ov p st (raw, tagFrom n ws) =
      if mw ≤ (buf ++ tagFrom n ws).length
      then flush src ov p false ⟨ps, buf ++ tagFrom n ws, cm, ls, cks, tr⟩
      else ⟨ps, buf ++ tagFrom n ws, cm, ls, cks, tr⟩ := by
    simp only [processLine, hst1]
  rw [hPL]
  have h3 : Inv7 (⟨ps, buf ++ tagFrom n ws, cm, ls, cks, tr⟩ : ChunkerState (Nat × String))
      m2 (n + ws.length) := by
    refine inv7_extend ⟨ps, buf, cm, ls, cks, tr⟩ _ n ws ?_ ?_ ?_ h2 <;> rfl
  split
  · exact ⟨m2, inv7_flush src ov p false _ h3⟩
  · exact ⟨m2, h3⟩

theorem inv7_run (pages : List Page) (dets : List StructureDetector) (src : String)
    (mw ov : Nat) :
    ∃ m, Inv7 (chunkerRun dets src mw ov (tagPagesAux 0 (toLinePages pages))) m
      (0 + pagesTok (toLinePages pages)) := by
  unfold chunkerRun
  refine tagFoldPages_pres (fun st n => ∃ m, Inv7 st m n) dets src mw ov
    (fun st n p raw ws h => inv7_line dets src mw ov p st n raw ws h)
    (fun st n p h => by
      obtain ⟨m, h⟩ := h
      exact ⟨m, inv7_flush src ov p false st h⟩)
    (toLinePages pages) 0 initState ⟨0, ?_⟩
  refine ⟨le_refl 0, ?_, ?_, ?_, ?_⟩
  · intro q hq
    simp [initState, bufPos] at hq
  · intro c hcm
    simp [initState] at hcm
  · intro c hcm
    simp [initState] at hcm
  · exact List.Pairwise.nil

/-- C7: for any two chunks of the tagged run whose structural signatures
differ, the earlier chunk's token positions are disjoint from the later
one's (no buffered words carry across a structural boundary), and the
tagged run projects onto structured_chunker. -/
theorem c7_hard_boundary_isolation (pages : List Page)
    (dets : List StructureDetector) (src : String) (mw ov : Nat) :
    (∀ (i j : Fin (structured_chunker_tagged pages dets src mw ov).length),
       i < j →
       metaSig ((structured_chunker_tagged pages dets src mw ov).get i).metadata ≠
         metaSig ((structured_chunker_tagged pages dets src mw ov).get j).metadata →
       ∀ q ∈ posList ((structured_chunker_tagged pages dets src mw ov).get i),
         q ∉ posList ((structured_chunker_tagged pages dets src mw ov).get j)) ∧
    (structured_chunker_tagged pages dets src mw ov).map (mapChunk Prod.snd) =
      structured_chunker pages dets src mw ov := by
  constructor
  · obtain ⟨m, hInv⟩ := inv7_run pages dets src mw ov
    have hp := hInv.hpair
    intro i j hij hsig
    exact List.pairwise_iff_get.mp hp i j hij hsig
  · exact tagged_erase pages dets src mw ov

/-- C7 witness: at a concrete two-section input, position 0 of the first
chunk does not occur in the second chunk. -/
theorem c7_witness :
    (0 : Nat) ∉ posList ((structured_chunker_tagged [⟨1, "1.1 A\nx y\n2.2 B\nz w"⟩]
      [.numberedSectionDetector] "s" 10 5).get ⟨1, by decide⟩) :=
  (c7_hard_boundary_isolation [⟨1, "1.1 A\nx y\n2.2 B\nz w"⟩]
      [.numberedSectionDetector] "s" 10 5).1
    ⟨0, by decide⟩ ⟨1, by decide⟩ (by decide) (by decide) 0 (by decide)

/-! ## C8: overlap continuity -/

theorem snoc_inj {γ : Type} {l1 l2 : List γ} {a b : γ} (h : l1 ++ [a] = l2 ++ [b]) :
    l1 = l2 ∧ a = b := by
  obtain ⟨h1, h2⟩ := List.append_inj' h rfl
  exact ⟨h1, by injection h2⟩

theorem snoc_cases {γ : Type} {l t1 t2 : List γ} {e a b : γ}
    (h : l ++ [e] = t1 ++ a :: b :: t2) :
    (t2 = [] ∧ b = e ∧ l = t1 ++ [a]) ∨
      ∃ t3, t2 = t3 ++ [e] ∧ l = t1 ++ a :: b :: t3 := by
  rcases List.eq_nil_or_concat t2 with rfl | ⟨t3, x, rfl⟩
  · left
    have h2 : l ++ [e] = (t1 ++ [a]) ++ [b] := by simpa using h
    obtain ⟨h3, h4⟩ := snoc_inj h2
    exact ⟨rfl, h4.symm, h3⟩
  · right
    have h2 : l ++ [e] = (t1 ++ a :: b :: t3) ++ [x] := by
      simpa [List.concat_eq_append] using h
    obtain ⟨h3, h4⟩ := snoc_inj h2
    exact ⟨t3, by rw [List.concat_eq_append, h4], h3⟩

theorem flush_of_empty (src : String) (ov p : Nat) (fr : Bool) (st : ChunkerState α)
    (hb : st.buffer.isEmpty = true) : flush src ov p fr st = st := by
  unfold flush
  rw [if_pos hb]

theorem flush_false_buffer (src : String) (ov p : Nat) (st : ChunkerState String) :
    (flush src ov p false st).buffer = retainTail ov st.buffer := by
  unfold flush
  split
  · next h =>
    simp only [List.isEmpty_iff] at h
    simp [h, retainTail]
  · split
    · next h =>
      rcases h with h | h
      · cases h
      · subst h
        simp [retainTail, List.drop_length]
    · rfl

theorem flush_false_trace (src : String) (ov p : Nat) (st : ChunkerState String)
    (hb : st.buffer.isEmpty = false) :
    (flush src ov p false st).trace =
      st.trace ++ [TraceEv.emit FlushKind.soft (flushChunk src p st)] := by
  rw [flush_eq_of_ne src ov p false st hb]
  simp

theorem traceAdj_snoc_boundary (ov : Nat) (tr : List (TraceEv String))
    (h : traceAdj ov tr) : traceAdj ov (tr ++ [TraceEv.boundary]) := by
  intro t1 c k2 c2 t2 heq
  rcases snoc_cases heq with ⟨_, hbe, _⟩ | ⟨t3, _, hl⟩
  · exact TraceEv.noConfusion hbe
  · exact h t1 c k2 c2 t3 hl

theorem traceAdj_boundary_then_emit (ov : Nat) (tr0 : List (TraceEv String))
    (k3 : FlushKind) (c3 : ChunkT String) (h : traceAdj ov (tr0 ++ [TraceEv.boundary])) :
    traceAdj ov ((tr0 ++ [TraceEv.boundary]) ++ [TraceEv.emit k3 c3]) := by
  intro t1 c k2 c2 t2 heq
  rcases snoc_cases heq with ⟨_, _, hl⟩ | ⟨t3, _, hl⟩
  · obtain ⟨_, h2⟩ := snoc_inj hl
    exact TraceEv.noConfusion h2
  · exact h t1 c k2 c2 t3 hl

theorem bufAS_end_boundary (ov : Nat) (tr0 : List (TraceEv String)) (buf : List String) :
    bufAfterSoft ov (tr0 ++ [TraceEv.boundary]) buf := by
  intro t1 c heq
  obtain ⟨_, h2⟩ := snoc_inj heq
  exact TraceEv.noConfusion h2

theorem bufAS_end_hard (ov : Nat) (tr0 : List (TraceEv String)) (c3 : ChunkT String)
    (buf : List String) :
    bufAfterSoft ov (tr0 ++ [TraceEv.emit FlushKind.hard c3]) buf := by
  intro t1 c heq
  obtain ⟨_, h2⟩ := snoc_inj heq
  injection h2 with hk _
  exact FlushKind.noConfusion hk

theorem phi8_flush_soft (src : String) (ov p : Nat) (st : ChunkerState String)
    (h1 : traceAdj ov st.trace) (h2 : bufAfterSoft ov st.trace st.buffer) :
    traceAdj ov (flush src ov p false st).trace ∧
      bufAfterSoft ov (flush src ov p false st).trace (flush src ov p false st).buffer := by
  by_cases hb : st.buffer.isEmpty
  · rw [flush_of_empty src ov p false st hb]
    exact ⟨h1, h2⟩
  · have hb2 : st.buffer.isEmpty = false := by simpa using hb
    have htr := flush_false_trace src ov p st hb2
    have hbf := flush_false_buffer src ov p st
    constructor
    · rw [htr]
      intro t1 c k2 c2 t2 heq
      rcases snoc_cases heq with ⟨_, hbe, hl⟩ | ⟨t3, _, hl⟩
      · injection hbe with hk hc
        obtain ⟨ext, hext⟩ := h2 t1 c hl
        refine ⟨ext, ?_⟩
        rw [hc]
        show (flushChunk src p st).text = retainTail ov c.text ++ ext
        simpa [flushChunk] using hext
      · exact h1 t1 c k2 c2 t3 hl
    · intro t1 c heq
      rw [htr] at heq
      obtain ⟨_, he⟩ := snoc_inj heq
      injection he with _ hc
      refine ⟨[], ?_⟩
      rw [hbf, List.append_nil, ← hc]
      rfl

theorem phi8_commit (dets : List StructureDetector) (src : String) (ov p : Nat)
    (st : ChunkerState String) (raw : List Char)
    (h1 : traceAdj ov st.trace) (h2 : bufAfterSoft ov st.trace st.buffer) :
    traceAdj ov (commitStep dets src ov p st raw).trace ∧
      bufAfterSoft ov (commitStep dets src ov p st raw).trace
        (commitStep dets src ov p st raw).buffer := by
  simp only [commitStep]
  split
  · by_cases hb : st.buffer.isEmpty
    · have hfl : flush src ov p true (⟨(process_line dets st.pipelineState raw).2, st.buffer,
          st.current_metadata, st.last_structure, st.chunks,
          st.trace ++ [TraceEv.boundary]⟩ : ChunkerState String) =
          ⟨(process_line dets st.pipelineState raw).2, st.buffer,
           st.current_metadata, st.last_structure, st.chunks,
           st.trace ++ [TraceEv.boundary]⟩ :=
        flush_of_empty src ov p true _ hb
      rw [hfl]
      exact ⟨traceAdj_snoc_boundary ov st.trace h1, bufAS_end_boundary ov st.trace st.buffer⟩
    · have hb2 : (⟨(process_line dets st.pipelineState raw).2, st.buffer,
          st.current_metadata, st.last_structure, st.chunks,
          st.trace ++ [TraceEv.boundary]⟩ : ChunkerState String).buffer.isEmpty = false := by
        simpa using hb
      rw [flush_eq_of_ne src ov p true _ hb2]
      constructor
      · show traceAdj ov ((st.trace ++ [TraceEv.boundary]) ++ [TraceEv.emit _ _])
        exact traceAdj_boundary_then_emit ov st.trace _ _ (traceAdj_snoc_boundary ov st.trace h1)
      · show bufAfterSoft ov ((st.trace ++ [TraceEv.boundary]) ++ [TraceEv.emit (if true = true then FlushKind.hard else FlushKind.soft) _]) _
        rw [if_pos rfl]
        exact bufAS_end_hard ov _ _ _
  · exact ⟨h1, fun t1 c heq => h2 t1 c heq⟩

theorem phi8_line (dets : List StructureDetector) (src : String) (mw ov p : Nat)
    (st : ChunkerState String) (raw : List Char) (ws : List String)
    (h : traceAdj ov st.trace ∧ bufAfterSoft ov st.trace st.buffer) :
    traceAdj ov (processLine dets src mw ov p st (raw, ws)).trace ∧
      bufAfterSoft ov (processLine dets src mw ov p st (raw, ws)).trace
        (processLine dets src mw ov p st (raw, ws)).buffer := by
  obtain ⟨hA, hB⟩ := phi8_commit dets src ov p st raw h.1 h.2
  generalize hst1 : commitStep dets src ov p st raw = st1 at hA hB
  obtain ⟨ps, buf, cm, ls, cks, tr⟩ := st1
  have hPL : processLine dets src mw ov p st (raw, ws) =
      if mw ≤ (buf ++ ws).length
      then flush src ov p false ⟨ps, buf ++ ws, cm, ls, cks, tr⟩
      else ⟨ps, buf ++ ws, cm, ls, cks, tr⟩ := by
    simp only [processLine, hst1]
  rw [hPL]
  have hB2 : bufAfterSoft ov tr (buf ++ ws) := by
    intro t1 c heq
    obtain ⟨ext, hext⟩ := hB t1 c heq
    exact ⟨ext ++ ws, by rw [show buf = retainTail ov c.text ++ ext from hext, List.append_assoc]⟩
  split
  · exact phi8_flush_soft src ov p ⟨ps, buf ++ ws, cm, ls, cks, tr⟩ hA hB2
  · exact ⟨hA, hB2⟩

theorem phi8_run (pages : List Page) (dets : List StructureDetector) (src : String)
    (mw ov : Nat) :
    traceAdj ov (structured_chunkerTrace pages dets src mw ov) := by
  have h := foldPages_pres (α := String)
    (fun st => traceAdj ov st.trace ∧ bufAfterSoft ov st.trace st.buffer)
    (fun _ => True) dets src mw ov
    (fun st p raw ws _ h => phi8_line dets src mw ov p st raw ws h)
    (fun st p h => phi8_flush_soft src ov p st h.1 h.2)
    (toLinePages pages) initState (fun _ _ _ _ => trivial)
    ⟨?_, ?_⟩
  · exact h.1
  · intro t1 c k2 c2 t2 heq
    exact absurd heq (by simp [initState])
  · intro t1 c heq
    exact absurd heq (by simp [initState])

theorem inv0_of_fields (st st2 : ChunkerState (Nat × String))
    (hb : st2.buffer = st.buffer) (hc : st2.chunks = st.chunks)
    {n : Nat} (h : Inv0 st n) : Inv0 st2 n := by
  refine ⟨?_, ?_, ?_, ?_⟩
  · intro q hq
    exact h.hbuf q (by simpa [bufPos, hb] using hq)
  · intro c hcm
    exact h.hchunks c (by simpa [hc] using hcm)
  · intro c hcm q hq
    have := h.hdisj c (by simpa [hc] using hcm) q hq
    simpa [bufPos, hb] using this
  · rw [hc]
    exact h.hpair

theorem inv0_flush (src : String) (p : Nat) (fr : Bool)
    (st : ChunkerState (Nat × String)) {n : Nat} (h : Inv0 st n) :
    Inv0 (flush src 0 p fr st) n := by
  by_cases hb : st.buffer.isEmpty
  · rw [flush_of_empty src 0 p fr st hb]
    exact h
  · have hres : flush src 0 p fr st =
        ⟨st.pipelineState, [], st.current_metadata, st.last_structure,
         st.chunks ++ [flushChunk src p st],
         st.trace ++ [TraceEv.emit (if fr = true then FlushKind.hard else FlushKind.soft)
           (flushChunk src p st)]⟩ := by
      rw [flush_eq_of_ne src 0 p fr st (by simpa using hb)]
      simp
    rw [hres]
    refine ⟨?_, ?_, ?_, ?_⟩
    · intro q hq
      simp [bufPos] at hq
    · intro c hcm
      simp only [List.mem_append, List.mem_singleton] at hcm
      rcases hcm with hcm | rfl
      · exact h.hchunks c hcm
      · intro q hq
        exact h.hbuf q hq
    · intro c hcm q hq
      simp [bufPos]
    · rw [List.pairwise_append]
      refine ⟨h.hpair, List.pairwise_singleton _ _, ?_⟩
      intro a ha b hb2
      simp only [List.mem_singleton] at hb2
      subst hb2
      intro q hq
      exact h.hdisj a ha q hq

theorem inv0_commit (dets : List StructureDetector) (src : String) (p : Nat)
    (st : ChunkerState (Nat × String)) (raw : List Char) {n : Nat}
    (h : Inv0 st n) : Inv0 (commitStep dets src 0 p st raw) n := by
  simp only [commitStep]
  split
  · have hM : Inv0 (⟨(process_line dets st.pipelineState raw).2, st.buffer,
        st.current_metadata, st.last_structure, st.chunks,
        st.trace ++ [TraceEv.boundary]⟩ : ChunkerState (Nat × String)) n := by
      refine inv0_of_fields st _ ?_ ?_ h <;> rfl
    have hF := inv0_flush src p true _ hM
    refine inv0_of_fields _ _ ?_ ?_ hF <;> rfl
  · refine inv0_of_fields st _ ?_ ?_ h <;> rfl

theorem inv0_extend (st st2 : ChunkerState (Nat × String)) (n2 : Nat) (ws : List String)
    (hb : st2.buffer = st.buffer ++ tagFrom n2 ws) (hc : st2.chunks = st.chunks)
    (h : Inv0 st n2) : Inv0 st2 (n2 + ws.length) := by
  refine ⟨?_, ?_, ?_, ?_⟩
  · intro q hq
    simp only [bufPos, hb, List.map_append, List.mem_append] at hq
    rcases hq with hq | hq
    · have := h.hbuf q hq
      omega
    · have := tagFrom_bounds hq
      omega
  · intro c hcm q hq
    have := h.hchunks c (by simpa [hc] using hcm) q hq
    omega
  · intro c hcm q hq
    simp only [bufPos, hb, List.map_append, List.mem_append]
    intro hq2
    rcases hq2 with hq2 | hq2
    · exact h.hdisj c (by simpa [hc] using hcm) q hq (by simpa [bufPos] using hq2)
    · have h1 := h.hchunks c (by simpa [hc] using hcm) q hq
      have h2 := tagFrom_bounds hq2
      omega
  · rw [hc]
    exact h.hpair

theorem inv0_line (dets : List StructureDetector) (src : String) (mw p : Nat)
    (st : ChunkerState (Nat × String)) (n : Nat) (raw : List Char) (ws : List String)
    (h : Inv0 st n) :
    Inv0 (processLine dets src mw 0 p st (raw, tagFrom n ws)) (n + ws.length) := by
  have h2 := inv0_commit dets src p st raw h
  generalize hst1 : commitStep dets src 0 p st raw = st1 at h2
  obtain ⟨ps, buf, cm, ls, cks, tr⟩ := st1
  have hPL : processLine dets src mw 0 p st (raw, tagFrom n ws) =
      if mw ≤ (buf ++ tagFrom n ws).length
      then flush src 0 p false ⟨ps, buf ++ tagFrom n ws, cm, ls, cks, tr⟩
      else ⟨ps, buf ++ tagFrom n ws, cm, ls, cks, tr⟩ := by
    simp only [processLine, hst1]
  rw [hPL]
  have h3 : Inv0 (⟨ps, buf ++ tagFrom n ws, cm, ls, cks, tr⟩ : ChunkerState (Nat × String))
      (n + ws.length) := by
    refine inv0_extend ⟨ps, buf, cm, ls, cks, tr⟩ _ n ws ?_ ?_ h2 <;> rfl
  split
  · exact inv0_flush src p false _ h3
  · exact h3

theorem inv0_run (pages : List Page) (dets : List StructureDetector) (src : String)
    (mw : Nat) :
    Inv0 (chunkerRun dets src mw 0 (tagPagesAux 0 (toLinePages pages)))
      (0 + pagesTok (toLinePages pages)) := by
  unfold chunkerRun
  refine tagFoldPages_pres (fun st n => Inv0 st n) dets src mw 0
    (fun st n p raw ws h => inv0_line dets src mw p st n raw ws h)
    (fun st n p h => inv0_flush src p false st h)
    (toLinePages pages) 0 initState ?_
  refine ⟨?_, ?_, ?_, ?_⟩
  · intro q hq
    simp [initState, bufPos] at hq
  · intro c hcm
    simp [initState] at hcm
  · intro c hcm
    simp [initState] at hcm
  · exact List.Pairwise.nil

/-- C8: overlap continuity.  For overlap k > 0, whenever the trace contains
two immediately consecutive emissions (no chunk and no structural boundary
in between) the first of which is soft, and the earlier chunk has at least
k words, the first k words of the later chunk are the last k words of the
earlier one.  For overlap 0, the chunks of the tagged run are pairwise
position-disjoint (no words are carried at all), and the tagged run
projects onto structured_chunker. -/
theorem c8_overlap_continuity (pages : List Page) (dets : List StructureDetector)
    (src : String) (mw ov : Nat) :
    (0 < ov →
      ∀ t1 c k2 c2 t2,
        structured_chunkerTrace pages dets src mw ov =
          t1 ++ TraceEv.emit FlushKind.soft c :: TraceEv.emit k2 c2 :: t2 →
        ov ≤ c.text.length →
        c2.text.take ov = c.text.drop (c.text.length - ov)) ∧
    (ov = 0 →
      (structured_chunker_tagged pages dets src mw ov).Pairwise
        (fun c c2 => ∀ q ∈ posList c, q ∉ posList c2) ∧
      (structured_chunker_tagged pages dets src mw ov).map (mapChunk Prod.snd) =
        structured_chunker pages dets src mw ov) := by
  constructor
  · intro _ t1 c k2 c2 t2 heq hlen
    obtain ⟨ext, hext⟩ := phi8_run pages dets src mw ov t1 c k2 c2 t2 heq
    have hlen2 : (retainTail ov c.text).length = ov := by
      simp only [retainTail, List.length_drop]
      omega
    rw [hext]
    calc (retainTail ov c.text ++ ext).take ov
        = (retainTail ov c.text ++ ext).take (retainTail ov c.text).length := by rw [hlen2]
      _ = retainTail ov c.text := List.take_left _ _
  · intro hov0
    subst hov0
    exact ⟨(inv0_run pages dets src mw).hpair, tagged_erase pages dets src mw 0⟩

/-- C8 witness: the overlap equation at a concrete soft-soft trace, and the
zero-overlap disjointness at a concrete input. -/
theorem c8_witness :
    ((["g"] : List String).take 1 = (["a","b","c","d","e","f","g"] : List String).drop 6) ∧
    ((structured_chunker_tagged [⟨1, "x y"⟩] [] "s" 3 0).Pairwise
        (fun c c2 => ∀ q ∈ posList c, q ∉ posList c2) ∧
      (structured_chunker_tagged [⟨1, "x y"⟩] [] "s" 3 0).map (mapChunk Prod.snd) =
        structured_chunker [⟨1, "x y"⟩] [] "s" 3 0) := by
  constructor
  · exact (c8_overlap_continuity [⟨1, "a b c d e f g"⟩] [] "s.pdf" 3 1).1 (by decide)
      [] ⟨["a","b","c","d","e","f","g"], ⟨1, "s.pdf", none, none, none⟩⟩ FlushKind.soft
      ⟨["g"], ⟨1, "s.pdf", none, none, none⟩⟩ [] (by decide) (by decide)
  · exact (c8_overlap_continuity [⟨1, "x y"⟩] [] "s" 3 0).2 rfl

/-! ## C10: end-of-page flush on a blank page -/

theorem flush_chunks_of_ne (src : String) (ov p : Nat) (st : ChunkerState α)
    (hb : st.buffer.isEmpty = false) :
    (flush src ov p false st).chunks = st.chunks ++ [flushChunk src p st] := by
  rw [flush_eq_of_ne src ov p false st hb]

/-- C10: appending a page with no non-empty lines still triggers its
end-of-page flush, so when the buffer is non-empty (for instance holding
the words retained by an earlier soft flush) a chunk consisting exactly of
those buffered words is emitted and tagged with the blank page's number —
a page that contributed none of the chunk's words. -/
theorem c10_empty_page_flush (pages : List Page) (p : Nat) (text : String)
    (dets : List StructureDetector) (src : String) (mw ov : Nat) (_hov : 0 < ov)
    (hblank : pageLines text = [])
    (hbuf : (chunkerRun dets src mw ov (toLinePages pages)).buffer ≠ []) :
    structured_chunker (pages ++ [⟨p, text⟩]) dets src mw ov =
      structured_chunker pages dets src mw ov ++
        [flushChunk src p (chunkerRun dets src mw ov (toLinePages pages))] := by
  unfold structured_chunker
  have h1 : toLinePages (pages ++ [⟨p, text⟩]) = toLinePages pages ++ [(p, [])] := by
    simp [toLinePages, hblank]
  rw [h1]
  unfold chunkerRun
  rw [List.foldl_append]
  simp only [List.foldl_cons, List.foldl_nil]
  show (flush src ov p false _).chunks = _
  rw [flush_chunks_of_ne src ov p _ (by simpa [List.isEmpty_iff] using hbuf)]
  rfl

/-- C10 witness: a soft flush retains two words; a following empty page
emits exactly those two words tagged page 2. -/
theorem c10_witness :
    structured_chunker [⟨1, "a b c d e f"⟩, ⟨2, ""⟩] [] "s.pdf" 3 2 =
      structured_chunker [⟨1, "a b c d e f"⟩] [] "s.pdf" 3 2 ++
        [flushChunk "s.pdf" 2 (chunkerRun [] "s.pdf" 3 2 (toLinePages [⟨1, "a b c d e f"⟩]))] :=
  c10_empty_page_flush [⟨1, "a b c d e f"⟩] 2 "" [] "s.pdf" 3 2 (by decide) (by decide)
    (by decide)

/-! ## C2: the worked example -/

/-- C2 counterexample: on the spec's worked example the emitted chunk texts
are "UNIT I", "1.1 Intro Hello world this is page one" and "page one"; the
chunk text the claim asserts, "Hello world this is page", is never
produced, and the buffer retained after the third line's soft flush is
["page","one"], not ["is","page"]. -/
theorem c2_cex :
    (structured_chunker c2pages c2dets "doc.pdf" 5 2).map chunkText =
      ["UNIT I", "1.1 Intro Hello world this is page one", "page one"] ∧
    ¬ ("Hello world this is page" ∈
        (structured_chunker c2pages c2dets "doc.pdf" 5 2).map chunkText) ∧
    c2midState.buffer = ["page", "one"] ∧
    ¬ (c2midState.buffer = ["is", "page"]) := by
  exact ⟨by decide, by decide, by decide, by decide⟩

/-- C2 (amended): on the worked example the heading lines' own words are
buffered too, so the run hard-flushes "UNIT I" at the second heading, the
size-triggered (soft) flush on the third line emits the whole buffer
"1.1 Intro Hello world this is page one" with metadata {page 1, source
doc.pdf, unit I, section 1.1, section_title Intro}, and the buffer then
retains the last two words ["page","one"], emitted again by the
end-of-page flush. -/
theorem c2_amended :
    structured_chunker c2pages c2dets "doc.pdf" 5 2 =
      [⟨["UNIT", "I"], ⟨1, "doc.pdf", some "I", none, none⟩⟩,
       ⟨["1.1", "Intro", "Hello", "world", "this", "is", "page", "one"],
        ⟨1, "doc.pdf", some "I", some "1.1", some "Intro"⟩⟩,
       ⟨["page", "one"], ⟨1, "doc.pdf", some "I", some "1.1", some "Intro"⟩⟩] ∧
    structured_chunkerTrace c2pages c2dets "doc.pdf" 5 2 =
      [.boundary, .boundary,
       .emit .hard ⟨["UNIT", "I"], ⟨1, "doc.pdf", some "I", none, none⟩⟩,
       .emit .soft ⟨["1.1", "Intro", "Hello", "world", "this", "is", "page", "one"],
         ⟨1, "doc.pdf", some "I", some "1.1", some "Intro"⟩⟩,
       .emit .soft ⟨["page", "one"], ⟨1, "doc.pdf", some "I", some "1.1", some "Intro"⟩⟩] ∧
    c2midState.buffer = ["page", "one"] ∧
    chunkText ⟨["1.1", "Intro", "Hello", "world", "this", "is", "page", "one"],
        ⟨1, "doc.pdf", some "I", some "1.1", some "Intro"⟩⟩ =
      "1.1 Intro Hello world this is page one" := by
  exact ⟨by decide, by decide, by decide, by decide⟩

/-! ## C3: state mutation on the empty-corpus errors -/

theorem gather_error_shape (files : List (String × ExtractOutcome)) (e : String)
    (h : gatherChunks files = .error e) :
    ∃ fname msg, e = "Failed to process " ++ fname ++ ": " ++ msg := by
  induction files with
  | nil => simp [gatherChunks] at h
  | cons f rest ih =>
    obtain ⟨fname, out⟩ := f
    cases out with
    | failure msg =>
      simp only [gatherChunks, Except.error.injEq] at h
      exact ⟨fname, msg, h.symm⟩
    | pages ps =>
      simp only [gatherChunks] at h
      cases hr : gatherChunks rest with
      | error e2 =>
        rw [hr] at h
        simp only [Except.error.injEq] at h
        subst h
        exact ih hr
      | ok more =>
        rw [hr] at h
        simp at h

theorem gather_error_ne (fname msg : String) :
    ("Failed to process " ++ fname ++ ": " ++ msg) ≠ "No text content found in PDF." := by
  intro h
  have hd := congrArg String.data h
  rw [String.data_append, String.data_append, String.data_append] at hd
  have h1 : "Failed to process ".data = 'F' :: "ailed to process ".data := rfl
  have h2 : "No text content found in PDF.".data = 'N' :: "o text content found in PDF.".data := rfl
  rw [h1, h2] at hd
  simp only [List.cons_append, List.append_assoc] at hd
  injection hd with h3 _
  exact absurd h3 (by decide)

/-- C3 (amended): the no-extractable-text error leaves the whole state
untouched, but the zero-size-embeddings error occurs only after the global
chunk sequence has already been replaced: the vector index keeps its old
value while the chunks field holds the freshly gathered batch. -/
theorem c3_empty_corpus (encode : List String → List (List Int)) (st : ServerState)
    (files : List (String × ExtractOutcome)) :
    ((upload_pdf encode st files).1 = .error "No valid PDF pages found." →
      (upload_pdf encode st files).2 = st) ∧
    ((upload_pdf encode st files).1 = .error "No text content found in PDF." →
      ∃ all, gatherChunks files = .ok all ∧ all ≠ [] ∧
        (upload_pdf encode st files).2 = ⟨all, st.index⟩) := by
  unfold upload_pdf
  cases hg : gatherChunks files with
  | error e =>
    constructor
    · intro _
      rfl
    · intro he
      exfalso
      obtain ⟨fname, msg, rfl⟩ := gather_error_shape files e hg
      simp only [Prod.fst] at he
      injection he with he2
      exact gather_error_ne fname msg he2
  | ok all =>
    by_cases hemp : all.isEmpty
    · simp only [if_pos hemp]
      constructor
      · intro _
        trivial
      · intro he
        exfalso
        injection he with he2
        exact absurd he2 (by decide)
    · simp only [if_neg hemp]
      by_cases hsz : embSize (encode (all.map Chunk.text)) = 0
      · simp only [if_pos hsz]
        constructor
        · intro he
          exfalso
          injection he with he2
          exact absurd he2 (by decide)
        · intro _
          refine ⟨all, rfl, by simpa [List.isEmpty_iff] using hemp, ?_⟩
          rfl
      · simp only [if_neg hsz]
        constructor
        · intro he
          exact absurd he (by simp)
        · intro he
          exact absurd he (by simp)

/-- C3 counterexample: with an embedder returning an empty matrix, the
upload reports the zero-dimension-embeddings error, the index is unchanged,
but the global chunk sequence has been replaced — contradicting the claim
that no state is mutated on that error. -/
theorem c3_cex :
    (upload_pdf (fun _ => []) ⟨[⟨"old", ⟨9, "o", none, none, none⟩⟩], some [[1]]⟩
        [("doc.pdf", .pages [⟨1, "hello world"⟩])]).1 =
      .error "No text content found in PDF." ∧
    (upload_pdf (fun _ => []) ⟨[⟨"old", ⟨9, "o", none, none, none⟩⟩], some [[1]]⟩
        [("doc.pdf", .pages [⟨1, "hello world"⟩])]).2.index = some [[1]] ∧
    (upload_pdf (fun _ => []) ⟨[⟨"old", ⟨9, "o", none, none, none⟩⟩], some [[1]]⟩
        [("doc.pdf", .pages [⟨1, "hello world"⟩])]).2.chunks =
      [⟨"hello world", ⟨1, "doc.pdf", none, none, none⟩⟩] ∧
    ¬ ([⟨"hello world", ⟨1, "doc.pdf", none, none, none⟩⟩] =
        ([⟨"old", ⟨9, "o", none, none, none⟩⟩] : List Chunk)) := by
  exact ⟨by decide, by decide, by decide, by decide⟩

/-- C3 witness: both implications applied at concrete inputs. -/
theorem c3_witness :
    (upload_pdf (fun _ => [[1]]) ⟨[], some [[2]]⟩ []).2 = ⟨[], some [[2]]⟩ ∧
    (∃ all, gatherChunks [("doc.pdf", ExtractOutcome.pages [⟨1, "hello world"⟩])] = .ok all ∧
      all ≠ [] ∧
      (upload_pdf (fun _ => []) ⟨[], some [[2]]⟩
        [("doc.pdf", ExtractOutcome.pages [⟨1, "hello world"⟩])]).2 = ⟨all, some [[2]]⟩) :=
  ⟨(c3_empty_corpus (fun _ => [[1]]) ⟨[], some [[2]]⟩ []).1 (by decide),
   (c3_empty_corpus (fun _ => []) ⟨[], some [[2]]⟩
     [("doc.pdf", ExtractOutcome.pages [⟨1, "hello world"⟩])]).2 (by decide)⟩

/-! ## C5: section ambiguity -/

theorem dedup_eq_singleton {t : String} {l : List String} :
    l.dedup = [t] ↔ t ∈ l ∧ ∀ u ∈ l, u = t := by
  constructor
  · intro h
    constructor
    · have ht : t ∈ l.dedup := by
        rw [h]
        exact List.mem_singleton.mpr rfl
      exact List.mem_dedup.mp ht
    · intro u hu
      have h2 : u ∈ l.dedup := List.mem_dedup.mpr hu
      rw [h] at h2
      exact List.mem_singleton.mp h2
  · rintro ⟨ht, hall⟩
    induction l with
    | nil => cases ht
    | cons a rest ih =>
      have ha : a = t := hall a (List.mem_cons_self _ _)
      subst ha
      by_cases hmem : a ∈ rest
      · rw [List.dedup_cons_of_mem hmem]
        exact ih hmem (fun u hu => hall u (List.mem_cons_of_mem _ hu))
      · rw [List.dedup_cons_of_not_mem hmem]
        have hrest : rest = [] := by
          cases rest with
          | nil => rfl
          | cons b rb =>
            exfalso
            have hb : b = a := hall b (List.mem_cons_of_mem _ (List.mem_cons_self _ _))
            exact hmem (hb ▸ List.mem_cons_self _ _)
        subst hrest
        rfl

theorem extract_section_eq_some_iff (results : List Chunk) (t : String) :
    extract_section results = some t ↔ (results.filterMap truthyTitle).dedup = [t] := by
  unfold extract_section
  cases h : (results.filterMap truthyTitle).dedup with
  | nil => simp
  | cons a rest =>
    cases rest with
    | nil => simp
    | cons b rb => simp

/-- C5 (amended): extract_section returns a value iff the chunks' truthy
section titles (non-null and non-empty — the code's truthiness test also
drops empty strings, which the claim's "non-null" reading does not) are
exactly one distinct value, and then it returns that value. -/
theorem c5_section_ambiguity (results : List Chunk) (t : String) :
    extract_section results = some t ↔
      ((∃ r ∈ results, truthyTitle r = some t) ∧
        ∀ r ∈ results, ∀ u, truthyTitle r = some u → u = t) := by
  rw [extract_section_eq_some_iff, dedup_eq_singleton]
  constructor
  · rintro ⟨h1, h2⟩
    constructor
    · obtain ⟨r, hr, hrt⟩ := List.mem_filterMap.mp h1
      exact ⟨r, hr, hrt⟩
    · intro r hr u hu
      exact h2 u (List.mem_filterMap.mpr ⟨r, hr, hu⟩)
  · rintro ⟨⟨r, hr, hrt⟩, h2⟩
    refine ⟨List.mem_filterMap.mpr ⟨r, hr, hrt⟩, ?_⟩
    intro u hu
    obtain ⟨r2, hr2, hrt2⟩ := List.mem_filterMap.mp hu
    exact h2 r2 hr2 u hrt2

/-- C5 counterexample: a chunk whose section_title is the empty string: the
set of distinct non-null titles is the singleton containing the empty
string, yet extract_section returns none (the truthiness test drops empty
strings). -/
theorem c5_cex :
    extract_section [⟨"x", ⟨1, "s", none, none, some ""⟩⟩] = none ∧
    sectionTitlesNonNull [⟨"x", ⟨1, "s", none, none, some ""⟩⟩] = [""] := by
  exact ⟨by decide, by decide⟩

/-- C5 witness: the amended characterization applied at a singleton list. -/
theorem c5_witness :
    extract_section [⟨"x", ⟨1, "s", none, none, some "Intro"⟩⟩] = some "Intro" := by
  refine (c5_section_ambiguity [⟨"x", ⟨1, "s", none, none, some "Intro"⟩⟩] "Intro").mpr ?_
  refine ⟨⟨⟨"x", ⟨1, "s", none, none, some "Intro"⟩⟩, List.mem_singleton.mpr rfl, by decide⟩, ?_⟩
  intro r hr u hu
  rw [List.mem_singleton] at hr
  subst hr
  have hu2 : some "Intro" = some u := by
    rw [show truthyTitle ⟨"x", ⟨1, "s", none, none, some "Intro"⟩⟩ = some "Intro" from by decide] at hu
    exact hu
  injection hu2 with hu3
  exact hu3.symm

/-! ## C6: polish fallback -/

/-- C6: polish_sentence is a total function of the collaborator's outcome —
both failure exceptions and a non-zero exit status return the input
unchanged, and a zero exit status returns the stripped stdout. -/
theorem c6_polish_fallback (x out : String) (rc : Int) :
    polish_sentence x .absent = x ∧ polish_sentence x .timeout = x ∧
      (rc ≠ 0 → polish_sentence x (.completed out rc) = x) ∧
      polish_sentence x (.completed out 0) = String.mk (pyStrip out.data) := by
  refine ⟨rfl, rfl, ?_, ?_⟩
  · intro h
    simp [polish_sentence, h]
  · simp [polish_sentence]

/-- C6 witness: the fallback and success cases at concrete values. -/
theorem c6_witness :
    polish_sentence "a" .absent = "a" ∧
      polish_sentence "a" (.completed " b " 2) = "a" ∧
      polish_sentence "a" (.completed " b " 0) = String.mk (pyStrip " b ".data) :=
  ⟨(c6_polish_fallback "a" " b " 2).1,
   (c6_polish_fallback "a" " b " 2).2.2.1 (by decide),
   (c6_polish_fallback "a" " b " 0).2.2.2⟩

/-! ## C9: source determinism -/

/-- C9 (amended): extract_sources is permutation-invariant, strictly
sorted (hence duplicate-free and ascending), and contains exactly the
truthy (non-null and non-empty) source values — the code's truthiness test
also drops empty-string sources, which the claim's "non-null" reading
keeps. -/
theorem c9_source_determinism :
    (∀ l1 l2 : List Chunk, l1.Perm l2 → extract_sources l1 = extract_sources l2) ∧
    (∀ l : List Chunk, (extract_sources l).Sorted (· < ·)) ∧
    (∀ (l : List Chunk) (x : String),
      x ∈ extract_sources l ↔ ∃ r ∈ l, truthySource r = some x) := by
  refine ⟨?_, ?_, ?_⟩
  · intro l1 l2 hp
    unfold extract_sources
    have hp2 : ((l1.filterMap truthySource).dedup).Perm ((l2.filterMap truthySource).dedup) :=
      (hp.filterMap _).dedup
    have hs1 := List.sorted_insertionSort (fun a b : String => a ≤ b)
      (l1.filterMap truthySource).dedup
    have hs2 := List.sorted_insertionSort (fun a b : String => a ≤ b)
      (l2.filterMap truthySource).dedup
    have hperm := ((List.perm_insertionSort (fun a b : String => a ≤ b)
        (l1.filterMap truthySource).dedup).trans hp2).trans
      (List.perm_insertionSort (fun a b : String => a ≤ b)
        (l2.filterMap truthySource).dedup).symm
    exact List.eq_of_perm_of_sorted hperm hs1 hs2
  · intro l
    have hs := List.sorted_insertionSort (fun a b : String => a ≤ b)
      (l.filterMap truthySource).dedup
    have hnd : ((l.filterMap truthySource).dedup.insertionSort
        (fun a b : String => a ≤ b)).Nodup :=
      (List.perm_insertionSort _ _).nodup_iff.mpr (List.nodup_dedup _)
    exact hs.lt_of_le hnd
  · intro l x
    unfold extract_sources
    rw [(List.perm_insertionSort _ _).mem_iff, List.mem_dedup, List.mem_filterMap]

/-- C9 counterexample: a chunk whose source is the empty string: the
distinct non-null sources are [""], but extract_sources drops it and
returns []. -/
theorem c9_cex :
    extract_sources [⟨"x", ⟨1, "", none, none, none⟩⟩] = [] ∧
    sourcesNonNull [⟨"x", ⟨1, "", none, none, none⟩⟩] = [""] := by
  exact ⟨by decide, by decide⟩

/-- C9 witness: permutation invariance at a concrete pair of permuted
lists. -/
theorem c9_witness :
    extract_sources [⟨"x", ⟨1, "b.pdf", none, none, none⟩⟩,
        ⟨"y", ⟨2, "a.pdf", none, none, none⟩⟩] =
      extract_sources [⟨"y", ⟨2, "a.pdf", none, none, none⟩⟩,
        ⟨"x", ⟨1, "b.pdf", none, none, none⟩⟩] :=
  c9_source_determinism.1 _ _ (by decide)

/-! ## C4: the UnitDetector characterization -/

theorem takeWhile_append_all {p : Char → Bool} (xs l : List Char)
    (h : ∀ x ∈ xs, p x = true) :
    (xs ++ l).takeWhile p = xs ++ l.takeWhile p := by
  induction xs with
  | nil => rfl
  | cons a rest ih =>
    have ha : p a = true := h a (List.mem_cons_self _ _)
    simp only [List.cons_append, List.takeWhile_cons, ha, if_true]
    rw [ih (fun x hx => h x (List.mem_cons_of_mem _ hx))]

theorem dropWhile_append_all {p : Char → Bool} (xs l : List Char)
    (h : ∀ x ∈ xs, p x = true) :
    (xs ++ l).dropWhile p = l.dropWhile p := by
  induction xs with
  | nil => rfl
  | cons a rest ih =>
    have ha : p a = true := h a (List.mem_cons_self _ _)
    simp only [List.cons_append, List.dropWhile_cons, ha, if_true]
    exact ih (fun x hx => h x (List.mem_cons_of_mem _ hx))

theorem takeWhile_nil_of_head {p : Char → Bool} {l : List Char}
    (h : ∀ c, l.head? = some c → p c = false) : l.takeWhile p = [] := by
  cases l with
  | nil => rfl
  | cons a rest =>
    have ha := h a rfl
    simp [List.takeWhile_cons, ha]

theorem dropWhile_id_of_head {p : Char → Bool} {l : List Char}
    (h : ∀ c, l.head? = some c → p c = false) : l.dropWhile p = l := by
  cases l with
  | nil => rfl
  | cons a rest =>
    have ha := h a rfl
    simp [List.dropWhile_cons, ha]

theorem head_dropWhile_false {p : Char → Bool} :
    ∀ (l : List Char) (c : Char), (l.dropWhile p).head? = some c → p c = false := by
  intro l
  induction l with
  | nil => intro c h; cases h
  | cons a rest ih =>
    intro c h
    by_cases ha : p a
    · rw [List.dropWhile_cons, if_pos ha] at h
      exact ih c h
    · rw [List.dropWhile_cons, if_neg ha] at h
      injection h with h2
      rw [← h2]
      simpa using ha

theorem roman_not_space (c : Char) (h : isRomanChar c = true) : pyIsSpace c = false := by
  simp only [isRomanChar, Bool.or_eq_true, decide_eq_true_eq] at h
  rcases h with ((((((((rfl | rfl) | rfl) | rfl) | rfl) | rfl) | rfl) | rfl) | rfl) | rfl <;> rfl

theorem ciStrip_some_iff (kw : List Char) :
    ∀ (s r : List Char), (ciStrip kw s = some r ↔
      ∃ pre, s = pre ++ r ∧ pre.map Char.toLower = kw.map Char.toLower) := by
  induction kw with
  | nil =>
    intro s r
    simp only [ciStrip, Option.some.injEq, List.map_nil]
    constructor
    · intro h
      exact ⟨[], by simp [h], by simp⟩
    · rintro ⟨pre, hs, hm⟩
      have hpre : pre = [] := by simpa using congrArg List.length hm
      subst hpre
      simpa using hs
  | cons k ks ih =>
    intro s r
    cases s with
    | nil =>
      simp only [ciStrip]
      constructor
      · intro h
        cases h
      · rintro ⟨pre, hs, hm⟩
        obtain ⟨hp, _⟩ := List.append_eq_nil.mp hs.symm
        subst hp
        simp at hm
    | cons c cs =>
      simp only [ciStrip]
      by_cases hc : c.toLower = k.toLower
      · rw [if_pos hc, ih cs r]
        constructor
        · rintro ⟨pre, hs, hm⟩
          exact ⟨c :: pre, by simp [hs], by simp [hm, hc]⟩
        · rintro ⟨pre, hs, hm⟩
          cases pre with
          | nil => simp at hm
          | cons d pre2 =>
            simp only [List.cons_append, List.cons.injEq] at hs
            obtain ⟨hd, hs2⟩ := hs
            simp only [List.map_cons, List.cons.injEq] at hm
            exact ⟨pre2, hs2, hm.2⟩
      · rw [if_neg hc]
        constructor
        · intro h
          cases h
        · rintro ⟨pre, hs, hm⟩
          cases pre with
          | nil => simp at hm
          | cons d pre2 =>
            simp only [List.cons_append, List.cons.injEq] at hs
            simp only [List.map_cons, List.cons.injEq] at hm
            exact absurd (hs.1 ▸ hm.1) hc

/-- C4 (amended): unitDetect returns a value exactly when the stripped line
starts with UNIT or CHAPTER (case-insensitive), then at least one
whitespace character, then at least one roman-numeral character
(case-insensitive); the returned value is the maximal such run, uppercased
— trailing non-roman characters in the same token are ignored, unlike the
claim's whole-token reading. -/
theorem c4_unit_detector (line : List Char) (u : String) :
    unitDetect line = some u ↔
      ∃ kw ws tok rest, pyStrip line = kw ++ (ws ++ (tok ++ rest)) ∧
        (kw.map Char.toLower = "unit".data ∨ kw.map Char.toLower = "chapter".data) ∧
        ws ≠ [] ∧ (∀ c ∈ ws, pyIsSpace c = true) ∧
        tok ≠ [] ∧ (∀ c ∈ tok, isRomanChar c = true) ∧
        (∀ c, rest.head? = some c → isRomanChar c = false) ∧
        u = String.mk (tok.map Char.toUpper) := by
  constructor
  · intro h
    have hcase : ∃ r, (ciStrip "UNIT".data (pyStrip line) = some r ∨
        ciStrip "CHAPTER".data (pyStrip line) = some r) ∧
        unitDetectAfter r = some u := by
      unfold unitDetect at h
      split at h
      · next r heq => exact ⟨r, Or.inl heq, h⟩
      · split at h
        · next r heq => exact ⟨r, Or.inr heq, h⟩
        · cases h
    obtain ⟨r, hsrc, hval⟩ := hcase
    unfold unitDetectAfter at hval
    by_cases hws : r.takeWhile pyIsSpace = []
    · rw [if_pos hws] at hval
      cases hval
    · rw [if_neg hws] at hval
      by_cases hnum : (r.dropWhile pyIsSpace).takeWhile isRomanChar = []
      · rw [if_pos hnum] at hval
        cases hval
      · rw [if_neg hnum] at hval
        injection hval with hval2
        have hkwpre : ∃ kw, pyStrip line = kw ++ r ∧
            (kw.map Char.toLower = "unit".data ∨ kw.map Char.toLower = "chapter".data) := by
          rcases hsrc with hu2 | hcp
          · obtain ⟨pre, hs2, hm⟩ := (ciStrip_some_iff "UNIT".data (pyStrip line) r).mp hu2
            exact ⟨pre, hs2, Or.inl (by rw [hm]; rfl)⟩
          · obtain ⟨pre, hs2, hm⟩ := (ciStrip_some_iff "CHAPTER".data (pyStrip line) r).mp hcp
            exact ⟨pre, hs2, Or.inr (by rw [hm]; rfl)⟩
        obtain ⟨kw, hkw1, hkw2⟩ := hkwpre
        refine ⟨kw, r.takeWhile pyIsSpace, (r.dropWhile pyIsSpace).takeWhile isRomanChar,
          (r.dropWhile pyIsSpace).dropWhile isRomanChar, ?_, hkw2, hws, ?_, hnum, ?_, ?_, ?_⟩
        · rw [hkw1]
          simp [List.takeWhile_append_dropWhile]
        · intro c hc
          exact List.mem_takeWhile_imp hc
        · intro c hc
          exact List.mem_takeWhile_imp hc
        · intro c hc
          exact head_dropWhile_false _ c hc
        · exact hval2.symm
  · rintro ⟨kw, ws, tok, rest, hsplit, hkw, hws, hwsall, htok, htokall, hrest, hu⟩
    have htok0 : ∀ c, (tok ++ rest).head? = some c → pyIsSpace c = false := by
      cases tok with
      | nil => exact absurd rfl htok
      | cons t0 tk =>
        intro c hc
        injection hc with hc2
        rw [← hc2]
        exact roman_not_space t0 (htokall t0 (List.mem_cons_self _ _))
    have hTW : (ws ++ (tok ++ rest)).takeWhile pyIsSpace = ws := by
      rw [takeWhile_append_all ws _ hwsall, takeWhile_nil_of_head htok0, List.append_nil]
    have hDW : (ws ++ (tok ++ rest)).dropWhile pyIsSpace = tok ++ rest := by
      rw [dropWhile_append_all ws _ hwsall, dropWhile_id_of_head htok0]
    have hTWR : (tok ++ rest).takeWhile isRomanChar = tok := by
      rw [takeWhile_append_all tok _ htokall, takeWhile_nil_of_head hrest, List.append_nil]
    have hafter : unitDetectAfter (ws ++ (tok ++ rest)) = some u := by
      unfold unitDetectAfter
      rw [hTW, if_neg hws, hDW, hTWR, if_neg htok, hu]
    rcases hkw with hkw | hkw
    · have hstrip : ciStrip "UNIT".data (pyStrip line) = some (ws ++ (tok ++ rest)) := by
        rw [ciStrip_some_iff]
        exact ⟨kw, hsplit, by rw [hkw]; rfl⟩
      unfold unitDetect
      rw [hstrip]
      exact hafter
    · have hnone : ciStrip "UNIT".data (pyStrip line) = none := by
        cases kw with
        | nil => simp at hkw
        | cons k0 kw2 =>
          simp only [List.map_cons] at hkw
          have hk0 : k0.toLower = 'c' := by
            have := congrArg List.head? hkw
            simpa using this
          rw [show pyStrip line = k0 :: (kw2 ++ (ws ++ (tok ++ rest))) from by
            rw [hsplit]; rfl]
          show ciStrip ('U' :: "NIT".data) (k0 :: (kw2 ++ (ws ++ (tok ++ rest)))) = none
          unfold ciStrip
          rw [if_neg (by rw [hk0]; decide)]
      have hstrip : ciStrip "CHAPTER".data (pyStrip line) = some (ws ++ (tok ++ rest)) := by
        rw [ciStrip_some_iff]
        exact ⟨kw, hsplit, by rw [hkw]; rfl⟩
      unfold unitDetect
      rw [hnone, hstrip]
      exact hafter

/-- C4 counterexample: on "UNIT IIZ" the detector fires and returns "II"
(the maximal roman-numeral run), although the whitespace-delimited token
"IIZ" is not composed solely of roman-numeral characters, so the claim says
it must return null. -/
theorem c4_cex :
    unitDetect "UNIT IIZ".data = some "II" ∧ unitDetectSpec "UNIT IIZ" = none := by
  exact ⟨by decide, by decide⟩

/-- C4 witness: the amended characterization applied at a concrete
chapter heading. -/
theorem c4_witness : unitDetect "chapter xii tail".data = some "XII" := by
  refine (c4_unit_detector "chapter xii tail".data "XII").mpr ?_
  refine ⟨"chapter".data, [' '], "xii".data, " tail".data, by decide, Or.inr (by decide),
    by decide, by decide, by decide, by decide, ?_, by decide⟩
  intro c hc
  injection hc with h2
  rw [← h2]
  decide

end TextbookMap
